import Mathlib

/-!
Shallow embedding of `src/RBTree.hpp` (namespace `demidenko`, template class
`RBTree<K, T, Compare>`): a red-black tree mapping unique keys to values.

Pointers are modelled by an inductive tree type plus an explicit zipper
(`Crumb` list) standing for the chain of parent pointers above the node the
C++ code currently holds a `Node*` to.  A `Crumb` records on which side the
focused node hangs below its parent (`Node::child(bool)` in the source, where
`child(true)` is `left`), the parent's colour, key, value, and the parent's
other subtree.  Operations that can dereference a null pointer or fail an
`assert` in the source return `Option`, with `none` standing for that
undefined behaviour.  The comparator `compare_` is passed explicitly as a
`cmp : K → K → Bool` argument.
-/

namespace demidenko

/-- `detail::Color` from `RBTreeNode.hpp` (used as `Color::Red`, `Color::Black`). -/
inductive Color where
  | Red
  | Black
deriving DecidableEq, Repr

/-- `detail::Node<K, T>`: a node owns its two child subtrees; the parent
back-pointer of the source is represented externally by the zipper. `nil`
is the null pointer / absent child. -/
inductive Node (K T : Type) where
  | nil
  | node (color : Color) (left : Node K T) (key : K) (val : T) (right : Node K T)
deriving DecidableEq, Repr

variable {K T : Type}

/-- `colorOf` (RBTree.hpp lines 540-550): colour of a possibly-null node;
null counts as Black. -/
def colorOf : Node K T → Color
  | .nil => .Black
  | .node c _ _ _ _ => c

/-- Recolouring a (non-null) node Black, as in `root_->color = Color::Black`
and `uncle->color = Color::Black`. -/
def blacken : Node K T → Node K T
  | .nil => .nil
  | .node _ l k v r => .node .Black l k v r

/-- In-order key/value sequence of a subtree: the sequence the iterators of
the container traverse from `begin()` to `end()`. -/
def inorder : Node K T → List (K × T)
  | .nil => []
  | .node _ l k v r => inorder l ++ (k, v) :: inorder r

/-- Number of nodes of a subtree (one heap allocation per node). -/
def sizeOf' : Node K T → Nat
  | .nil => 0
  | .node _ l _ _ r => sizeOf' l + sizeOf' r + 1

/-- One step of parent context: the focused node is the `isLeft`-side child
(`Node::child(bool)`, `child(true) = left`) of a parent with the recorded
colour, key and value, whose other child is `other`. -/
structure Crumb (K T : Type) where
  isLeft : Bool
  color : Color
  key : K
  val : T
  other : Node K T
deriving DecidableEq, Repr

/-- Rebuild the parent node around a replacement for the focused child. -/
def mkParent (c : Crumb K T) (t : Node K T) : Node K T :=
  if c.isLeft then .node c.color t c.key c.val c.other else .node c.color c.other c.key c.val t

/-- Rebuild the whole tree from a focused subtree and its parent context
(the chain of `p` pointers up to `root_`). -/
def plug : Node K T → List (Crumb K T) → Node K T
  | t, [] => t
  | t, c :: p => plug (mkParent c t) p

/-- `areKeysEqual` (lines 551-554): `!(compare_(a,b) || compare_(b,a))`. -/
def areKeysEqual (cmp : K → K → Bool) (a b : K) : Bool :=
  !(cmp a b || cmp b a)

/-- `findNode` (lines 429-463): descend from the focus comparing keys, and
stop at the first node with an equal key, or at the node where the search
runs out of children (the would-be insertion point).  The accumulated
crumbs record the parent pointers above the returned node. -/
def findNode (cmp : K → K → Bool) (key : K) :
    Node K T → List (Crumb K T) → Node K T × List (Crumb K T)
  | .nil, p => (.nil, p)
  | .node c l k v r, p =>
    if areKeysEqual cmp key k then (.node c l k v r, p)
    else if cmp key k then
      match l with
      | .nil => (.node c l k v r, p)
      | .node lc ll lk lv lr =>
        findNode cmp key (.node lc ll lk lv lr) (⟨true, c, k, v, r⟩ :: p)
    else
      match r with
      | .nil => (.node c l k v r, p)
      | .node rc rl rk rv rr =>
        findNode cmp key (.node rc rl rk rv rr) (⟨false, c, k, v, l⟩ :: p)

/-- `minNode` (lines 464-475): descend left children; null yields null. -/
def minNode : Node K T → Node K T
  | .nil => .nil
  | .node c .nil k v r => .node c .nil k v r
  | .node _ (.node lc ll lk lv lr) _ _ _ => minNode (.node lc ll lk lv lr)

/-- `minNode` as a zipper: descend via left children from the focus,
accumulating the parents passed on the way. -/
def minNodeZ : Node K T → List (Crumb K T) → Node K T × List (Crumb K T)
  | .nil, p => (.nil, p)
  | .node c .nil k v r, p => (.node c .nil k v r, p)
  | .node c (.node lc ll lk lv lr) k v r, p =>
    minNodeZ (.node lc ll lk lv lr) (⟨true, c, k, v, r⟩ :: p)

/-- `insertFixup` (lines 281-308), one call per iteration of the `while`
loop, walking the parent chain upward.  The focus is the `target` node.
`none` models the null dereference `target->p->p` that the source performs
when the parent is Red but the grandparent is absent (unreachable while the
root is Black).  Cases follow the source: Red uncle recolours and continues
from the grandparent; Black uncle rotates (inner grandchild first rotated
at the parent) and the loop then exits, after which `root_->color = Black`. -/
def insertFixup : Node K T → List (Crumb K T) → Option (Node K T)
  | foc, [] => some (blacken foc)
  | foc, pc :: rest =>
    if pc.color ≠ Color.Red then some (blacken (plug foc (pc :: rest)))
    else
      match rest with
      | [] => none
      | gc :: rest2 =>
        if colorOf gc.other = Color.Red then
          insertFixup
            (mkParent ⟨gc.isLeft, Color.Red, gc.key, gc.val, blacken gc.other⟩
              (mkParent ⟨pc.isLeft, Color.Black, pc.key, pc.val, pc.other⟩ foc))
            rest2
        else
          match gc.isLeft, pc.isLeft, foc with
          | true, false, .node _ xl xk xv xr =>
            some (blacken (plug
              (.node .Black (.node .Red pc.other pc.key pc.val xl) xk xv
                (.node .Red xr gc.key gc.val gc.other)) rest2))
          | true, true, x =>
            some (blacken (plug
              (.node .Black x pc.key pc.val
                (.node .Red pc.other gc.key gc.val gc.other)) rest2))
          | false, true, .node _ xl xk xv xr =>
            some (blacken (plug
              (.node .Black (.node .Red gc.other gc.key gc.val xl) xk xv
                (.node .Red xr pc.key pc.val pc.other)) rest2))
          | false, false, x =>
            some (blacken (plug
              (.node .Black (.node .Red gc.other gc.key gc.val pc.other) pc.key pc.val x)
              rest2))
          | _, _, .nil => none

/-- `insert` / `insertNode` (lines 150-153, 258-280): locate the insertion
point with `findNode`; an empty tree gets a Black root; an equal key is a
no-op returning `false`; otherwise a Red node is attached on the side chosen
by `compare_(candidate->key, key)` and `insertFixup` runs from it. -/
def insert (cmp : K → K → Bool) (t : Node K T) (key : K) (val : T) :
    Option (Bool × Node K T) :=
  match t with
  | .nil => some (true, .node .Black .nil key val .nil)
  | .node c0 l0 k0 v0 r0 =>
    match findNode cmp key (.node c0 l0 k0 v0 r0) [] with
    | (.nil, _) => none
    | (.node c l k v r, path) =>
      if areKeysEqual cmp key k then some (false, .node c0 l0 k0 v0 r0)
      else if cmp k key then
        (insertFixup (.node .Red .nil key val .nil) (⟨false, c, k, v, l⟩ :: path)).map
          (fun t2 => (true, t2))
      else
        (insertFixup (.node .Red .nil key val .nil) (⟨true, c, k, v, r⟩ :: path)).map
          (fun t2 => (true, t2))

/-- `isWeakRBTree` (lines 521-539): bottom-up black height, `0` signalling a
Red-Red adjacency or a black-height mismatch. -/
def isWeakRBTree : Node K T → Nat
  | .nil => 1
  | .node c l _ _ r =>
    if c = Color.Red ∧ (colorOf l = Color.Red ∨ colorOf r = Color.Red) then 0
    else
      let result := isWeakRBTree r
      if result = 0 ∨ result ≠ isWeakRBTree l then 0
      else result + (if c = Color.Red then 0 else 1)

/-- `isRBTree` (lines 164-171): requires a Black root then checks
`isWeakRBTree`.  On an empty tree the source dereferences the null `root_`
(`root_->color`), modelled as `none`. -/
def isRBTree : Node K T → Option Bool
  | .nil => none
  | .node c l k v r =>
    if c ≠ Color.Black then some false
    else some (isWeakRBTree (Node.node c l k v r) ≠ 0)

/-- One iteration of the `eraseFixup` `while` loop (lines 359-410).  The
focus is the `target` node (the *parent* of the position carrying the
black-height defect, which sits on its `isLeft` side).  `none` models the
`assert` failures / null dereferences the source can perform: `assert(target)`
at entry, the `assert(brother)` after a Red-brother rotation, and the child
recolourings `...->color = Black` on an absent node.  The result is either
`Sum.inl` (the loop has terminated, final statements applied) or `Sum.inr`
(the defect moved up: the next iteration's target, context and side).  When
the defect moves up the source recomputes the side as
`target == target->p->child(isLeftBroken)` (line 377), modelled verbatim:
the new side is `pc.isLeft` when the old side was left and `!pc.isLeft` when
it was right. -/
def eraseFixupStep :
    Node K T → List (Crumb K T) → Bool →
      Option (Node K T ⊕ Node K T × List (Crumb K T) × Bool)
  | .nil, _, _ => none
  | .node c l k v r, path, isLeft =>
    if isLeft then
      if colorOf l = Color.Red then
        some (Sum.inl (plug (.node c (blacken l) k v r) path))
      else
        let st : Option (Node K T × List (Crumb K T)) :=
          if colorOf r = Color.Red then
            match r with
            | .node _ rl rk rv rr =>
              some (.node Color.Red l k v rl, ⟨true, Color.Black, rk, rv, rr⟩ :: path)
            | .nil => none
          else some (.node c l k v r, path)
        match st with
        | none => none
        | some (.nil, _) => none
        | some (.node c2 l2 k2 v2 r2, path2) =>
          match r2 with
          | .nil => none
          | .node bc bl bk bv br =>
            if colorOf bl = Color.Black ∧ colorOf br = Color.Black then
              let foc3 := Node.node c2 l2 k2 v2 (.node Color.Red bl bk bv br)
              match path2 with
              | [] => some (Sum.inl (blacken foc3))
              | pc :: rest => some (Sum.inr (mkParent pc foc3, rest, pc.isLeft))
            else
              let b2 : Option (Node K T) :=
                if colorOf br = Color.Black then
                  match bl with
                  | .node _ bll blk blv blr =>
                    some (.node Color.Black bll blk blv (.node Color.Red blr bk bv br))
                  | .nil => none
                else some (.node bc bl bk bv br)
              match b2 with
              | none => none
              | some .nil => none
              | some (.node _ b2l b2k b2v b2r) =>
                match b2r with
                | .nil => none
                | .node _ _ _ _ _ =>
                  some (Sum.inl (blacken (plug
                    (.node c2 (.node Color.Black l2 k2 v2 b2l) b2k b2v (blacken b2r))
                    path2)))
    else
      if colorOf r = Color.Red then
        some (Sum.inl (plug (.node c l k v (blacken r)) path))
      else
        let st : Option (Node K T × List (Crumb K T)) :=
          if colorOf l = Color.Red then
            match l with
            | .node _ ll lk lv lr =>
              some (.node Color.Red lr k v r, ⟨false, Color.Black, lk, lv, ll⟩ :: path)
            | .nil => none
          else some (.node c l k v r, path)
        match st with
        | none => none
        | some (.nil, _) => none
        | some (.node c2 l2 k2 v2 r2, path2) =>
          match l2 with
          | .nil => none
          | .node bc bl bk bv br =>
            if colorOf bl = Color.Black ∧ colorOf br = Color.Black then
              let foc3 := Node.node c2 (.node Color.Red bl bk bv br) k2 v2 r2
              match path2 with
              | [] => some (Sum.inl (blacken foc3))
              | pc :: rest => some (Sum.inr (mkParent pc foc3, rest, !pc.isLeft))
            else
              let b2 : Option (Node K T) :=
                if colorOf bl = Color.Black then
                  match br with
                  | .node _ brl brk brv brr =>
                    some (.node Color.Black (.node Color.Red bl bk bv brl) brk brv brr)
                  | .nil => none
                else some (.node bc bl bk bv br)
              match b2 with
              | none => none
              | some .nil => none
              | some (.node _ b2l b2k b2v b2r) =>
                match b2l with
                | .nil => none
                | .node _ _ _ _ _ =>
                  some (Sum.inl (blacken (plug
                    (.node c2 (blacken b2l) b2k b2v (.node Color.Black b2r k2 v2 r2))
                    path2)))

/-- `eraseFixup` (lines 359-410): iterate the loop body.  The fuel only
bounds the number of iterations; each iteration either pops one context
crumb or terminates right after, so the callers pass ample fuel. -/
def eraseFixup : Nat → Node K T → List (Crumb K T) → Bool → Option (Node K T)
  | 0, _, _, _ => none
  | fuel + 1, foc, path, isLeft =>
    match eraseFixupStep foc path isLeft with
    | none => none
    | some (Sum.inl t) => some t
    | some (Sum.inr (f2, p2, s2)) => eraseFixup fuel f2 p2 s2

/-- `eraseNode` (lines 309-358): structural removal by child count, then
`eraseFixup` when the erased colour was Black.  `brokenNode` starts as
`target->p`, so removing a Black node that is the root with at most one
child passes a null `target` to `eraseFixup` (modelled `none`).  With two
children the in-order successor `candidate` is relinked into the removed
node's slot keeping the removed node's colour, `erasedColor` becomes the
successor's colour, and `brokenNode = candidate` — the *relocated
successor*, with `isLeftBroken = true` whenever the successor was not
`target->right` — exactly as lines 328-351 do. -/
def eraseNode (fuel : Nat) : Node K T → List (Crumb K T) → Option (Node K T)
  | .nil, _ => none
  | .node c l _ _ r, path =>
    match l, r with
    | .nil, .nil =>
      if c = Color.Black then
        match path with
        | [] => none
        | pc :: rest => eraseFixup fuel (mkParent pc .nil) rest pc.isLeft
      else some (plug .nil path)
    | .node lc ll lk lv lr, .nil =>
      if c = Color.Black then
        match path with
        | [] => none
        | pc :: rest => eraseFixup fuel (mkParent pc (.node lc ll lk lv lr)) rest pc.isLeft
      else some (plug (.node lc ll lk lv lr) path)
    | .nil, .node rc rl rk rv rr =>
      if c = Color.Black then
        match path with
        | [] => none
        | pc :: rest => eraseFixup fuel (mkParent pc (.node rc rl rk rv rr)) rest pc.isLeft
      else some (plug (.node rc rl rk rv rr) path)
    | .node lc ll lk lv lr, .node rc rl rk rv rr =>
      match rl with
      | .nil =>
        let foc2 := Node.node c (.node lc ll lk lv lr) rk rv rr
        if rc = Color.Black then eraseFixup fuel foc2 path false
        else some (plug foc2 path)
      | .node _ _ _ _ _ =>
        match minNodeZ (.node rc rl rk rv rr) [] with
        | (.node sc .nil sk sv sr, ip) =>
          let foc2 := Node.node c (.node lc ll lk lv lr) sk sv (plug sr ip)
          if sc = Color.Black then eraseFixup fuel foc2 path true
          else some (plug foc2 path)
        | _ => none

/-- `erase` (lines 154-163): locate the node; return `false` when the key is
absent; otherwise run `eraseNode` and return `true`.  The `eraseNode` fuel
comfortably exceeds the number of fixup iterations (at most one per crumb of
the search path, plus two). -/
def erase (cmp : K → K → Bool) (t : Node K T) (key : K) : Option (Bool × Node K T) :=
  match t with
  | .nil => some (false, t)
  | .node c0 l0 k0 v0 r0 =>
    match findNode cmp key (.node c0 l0 k0 v0 r0) [] with
    | (.nil, _) => some (false, .node c0 l0 k0 v0 r0)
    | (.node c l k v r, path) =>
      if areKeysEqual cmp key k then
        (eraseNode (path.length + sizeOf' (Node.node c l k v r) + 4) (.node c l k v r)
          path).map (fun t2 => (true, t2))
      else some (false, .node c0 l0 k0 v0 r0)

/-- `at` (lines 109-126): checked lookup.  `none` models the
`std::out_of_range` ("KeyNotFound") throw on an absent key. -/
def atVal (cmp : K → K → Bool) (t : Node K T) (key : K) : Option T :=
  match t with
  | .nil => none
  | .node c0 l0 k0 v0 r0 =>
    match findNode cmp key (.node c0 l0 k0 v0 r0) [] with
    | (.nil, _) => none
    | (.node _ _ k v _, _) => if areKeysEqual cmp key k then some v else none

/-- Modelled from the spec: `RBTreeIterator.hpp` is not under `src/`.  By §6
the iterator walks the key/value pairs in strictly increasing key order, so
`++iter` from the node with key `a` lands on the first in-order entry whose
key compares greater than `a` (`none` is the end iterator). -/
def succEntry (cmp : K → K → Bool) (t : Node K T) (a : K) : Option (K × T) :=
  (inorder t).find? (fun e => cmp a e.1)

/-- `lowerBound` (lines 132-140): an iterator at `findNode`'s result,
advanced one position when the found key compares less than the query
(`compare_(*iter, key)`).  `none` is the end iterator. -/
def lowerBound (cmp : K → K → Bool) (t : Node K T) (key : K) : Option (K × T) :=
  match t with
  | .nil => none
  | .node c0 l0 k0 v0 r0 =>
    match findNode cmp key (.node c0 l0 k0 v0 r0) [] with
    | (.nil, _) => none
    | (.node _ _ k v _, _) =>
      if cmp k key then succEntry cmp (.node c0 l0 k0 v0 r0) k else some (k, v)

/-- `copyTree` (lines 224-257) walks the source iteratively through parent
back-links, creating for every source node exactly one destination node with
the same key, value and colour in the same position
(`new Node{from->value, from->color, to}`); its result is this structural
clone. -/
def copyTree : Node K T → Node K T
  | .nil => .nil
  | .node c l k v r => .node c (copyTree l) k v (copyTree r)

/-- Copy constructor (lines 33-49): empty source gives an empty tree;
otherwise the root is recreated Black (`new Node{src.root_->value,
Color::Black}`, line 41) and `copyTree` clones the rest. -/
def copyCtor : Node K T → Node K T
  | .nil => .nil
  | .node _ l k v r => .node .Black (copyTree l) k v (copyTree r)

/-- `copyTree` under an allocation budget: each node costs one allocation,
`none` models `new` throwing `std::bad_alloc` when the budget is exhausted. -/
def copyTreeAlloc : Nat → Node K T → Option (Node K T × Nat)
  | b, .nil => some (.nil, b)
  | b, .node c l k v r =>
    match b with
    | 0 => none
    | b' + 1 =>
      match copyTreeAlloc b' l with
      | none => none
      | some (l2, b1) =>
        match copyTreeAlloc b1 r with
        | none => none
        | some (r2, b2) => some (.node c l2 k v r2, b2)

/-- Copy constructor under an allocation budget (lines 33-49): the root
costs the first allocation; any `bad_alloc` during the clone is caught and
`clear()` leaves the destination empty (`root_ = nullptr`). -/
def copyCtorAlloc (budget : Nat) : Node K T → Node K T
  | .nil => .nil
  | .node _ l k v r =>
    match budget with
    | 0 => .nil
    | b + 1 =>
      match copyTreeAlloc b l with
      | none => .nil
      | some (l2, b1) =>
        match copyTreeAlloc b1 r with
        | none => .nil
        | some (r2, _) => .node .Black l2 k v r2

/-- The tree object: `root_` and the comparator `compare_` (lines 556-557). -/
structure RBTreeS (K T : Type) where
  root : Node K T
  cmp : K → K → Bool

/-- Move constructor (lines 50-54): takes `src.root_` and clears it; the
member initialiser list does not mention `compare_`, so the new tree's
comparator is a default-constructed `Compare`, passed here as
`defaultCmp`.  Returns (new tree, moved-from source). -/
def moveCtor (defaultCmp : K → K → Bool) (src : RBTreeS K T) :
    RBTreeS K T × RBTreeS K T :=
  (⟨src.root, defaultCmp⟩, ⟨.nil, src.cmp⟩)

/-- Move assignment (lines 62-67): `std::swap` of both `root_` and
`compare_`.  Returns (new destination, moved-from source). -/
def moveAssign (dst src : RBTreeS K T) : RBTreeS K T × RBTreeS K T :=
  (⟨src.root, src.cmp⟩, ⟨dst.root, dst.cmp⟩)

/-- `begin()` (lines 195-198): an iterator at `minNode(root_)`; `none` is
the end iterator `iterator(nullptr)`, so `begin() == end()` is
`beginEntry t = none`. -/
def beginEntry (t : Node K T) : Option (K × T) :=
  match minNode t with
  | .nil => none
  | .node _ _ k v _ => some (k, v)

/-- Member `find`-style access of the tree object, using its own
`compare_`. -/
def RBTreeS.findS (s : RBTreeS K T) (key : K) : Node K T :=
  (findNode s.cmp key s.root []).1

/-- Member `insert` of the tree object, using its own `compare_`. -/
def RBTreeS.insertS (s : RBTreeS K T) (key : K) (val : T) : Option (Bool × Node K T) :=
  insert s.cmp s.root key val

/-- Member `erase` of the tree object, using its own `compare_`. -/
def RBTreeS.eraseS (s : RBTreeS K T) (key : K) : Option (Bool × Node K T) :=
  erase s.cmp s.root key

/-- Member `lowerBound` of the tree object, using its own `compare_`. -/
def RBTreeS.lowerBoundS (s : RBTreeS K T) (key : K) : Option (K × T) :=
  lowerBound s.cmp s.root key

/-- Modelled from the spec: the default-inserting access mode of §6
(`operator[]`, lines 100-108).  As written the source does not compile when
instantiated — line 105 assigns the `bool` result of `insert(key, T())` to
`Node* candidate` — so this definition follows the specified behaviour,
with the intended node-returning insertion: look the key up, insert a
default-constructed value when absent, and return (tree, referenced value). -/
def bracketRef (cmp : K → K → Bool) (dflt : T) (t : Node K T) (key : K) :
    Option (Node K T × T) :=
  match atVal cmp t key with
  | some v => some (t, v)
  | none =>
    match insert cmp t key dflt with
    | some (_, t2) => some (t2, dflt)
    | none => none

/-- The comparator `std::less<int>`: the default `Compare` instantiated at
integer keys, used to state the concrete theorems. -/
def intLt : Int → Int → Bool := fun a b => decide (a < b)

/-- A public mutating operation of §8's sequences. -/
inductive Op where
  | ins (k : Int) (v : Int)
  | del (k : Int)
deriving DecidableEq, Repr

/-- Run one public operation on the tree state (`none` = the operation hit
undefined behaviour / a failing `assert`). -/
def applyOp (t : Node Int Int) : Op → Option (Node Int Int)
  | .ins k v => (insert intLt t k v).map (·.2)
  | .del k => (erase intLt t k).map (·.2)

/-- Run a sequence of insert/erase operations from the empty tree. -/
def runOps (ops : List Op) : Option (Node Int Int) :=
  ops.foldlM applyOp .nil

/-- Key sequence of the in-order traversal. -/
def keysOf (t : Node K T) : List K :=
  (inorder t).map Prod.fst

/-- The part of the in-order sequence contributed by a parent context to the
left of the focused subtree. -/
def ctxL : List (Crumb K T) → List (K × T)
  | [] => []
  | c :: p => if c.isLeft then ctxL p else ctxL p ++ inorder c.other ++ [(c.key, c.val)]

/-- The part of the in-order sequence contributed by a parent context to the
right of the focused subtree. -/
def ctxR : List (Crumb K T) → List (K × T)
  | [] => []
  | c :: p => if c.isLeft then (c.key, c.val) :: inorder c.other ++ ctxR p else ctxR p

/-- Strict-weak-order invariant 5 of the spec at integer keys: the in-order
key sequence is strictly increasing under `<`. -/
def Ordered (t : Node Int T) : Prop :=
  List.Pairwise (· < ·) (keysOf t)

/-- The deepest context crumb (the one for `root_`), when present, is Black:
the state of any search path taken from a Black root. -/
def LastBlack : List (Crumb K T) → Prop
  | [] => True
  | [c] => c.color = Color.Black
  | _ :: c :: p => LastBlack (c :: p)

/-- Bound on one search-path crumb relative to the searched key: descending
left passed a larger key (and its right subtree is larger still), descending
right passed a smaller key (and its left subtree smaller still). -/
def CrumbBound (key : Int) (c : Crumb Int T) : Prop :=
  if c.isLeft then key < c.key ∧ ∀ x ∈ keysOf c.other, key < x
  else c.key < key ∧ ∀ x ∈ keysOf c.other, x < key

/-- First in-order entry whose key is not less than `key` — the
specification of `lowerBound` (§6). -/
def firstGE (t : Node Int T) (key : Int) : Option (Int × T) :=
  (inorder t).find? (fun e => decide (key ≤ e.1))

instance (t : Node Int T) : Decidable (Ordered t) :=
  inferInstanceAs (Decidable (List.Pairwise (· < ·) (keysOf t)))

theorem colorOf_nil : colorOf (.nil : Node K T) = Color.Black := rfl

theorem colorOf_node (c : Color) (l : Node K T) (k : K) (v : T) (r : Node K T) :
    colorOf (.node c l k v r) = c := rfl

theorem inorder_blacken (t : Node K T) : inorder (blacken t) = inorder t := by
  cases t <;> simp [blacken, inorder]

theorem blacken_ne_nil {t : Node K T} (h : t ≠ .nil) : blacken t ≠ .nil := by
  cases t <;> simp_all [blacken]

theorem colorOf_blacken {t : Node K T} (h : t ≠ .nil) :
    colorOf (blacken t) = Color.Black := by
  cases t <;> simp_all [blacken, colorOf]

theorem inorder_mkParent (c : Crumb K T) (t : Node K T) :
    inorder (mkParent c t) =
      if c.isLeft then inorder t ++ (c.key, c.val) :: inorder c.other
      else inorder c.other ++ (c.key, c.val) :: inorder t := by
  by_cases h : c.isLeft <;> simp [mkParent, inorder, h]

theorem mkParent_ne_nil (c : Crumb K T) (t : Node K T) : mkParent c t ≠ .nil := by
  by_cases h : c.isLeft <;> simp [mkParent, h]

theorem plug_ne_nil {t : Node K T} (p : List (Crumb K T)) (h : t ≠ .nil) :
    plug t p ≠ .nil := by
  induction p generalizing t with
  | nil => simpa [plug] using h
  | cons c p ih => simpa [plug] using ih (mkParent_ne_nil c t)

theorem inorder_plug (t : Node K T) (p : List (Crumb K T)) :
    inorder (plug t p) = ctxL p ++ inorder t ++ ctxR p := by
  induction p generalizing t with
  | nil => simp [plug, ctxL, ctxR]
  | cons c p ih =>
    by_cases h : c.isLeft <;>
      simp [plug, ctxL, ctxR, ih, inorder_mkParent, h, List.append_assoc]

theorem areKeysEqual_intLt (a b : Int) : areKeysEqual intLt a b = true ↔ a = b := by
  simp only [areKeysEqual, intLt, Bool.not_eq_true', Bool.or_eq_false_iff,
    decide_eq_false_iff_not]
  omega

theorem intLt_eq_true (a b : Int) : intLt a b = true ↔ a < b := by
  simp [intLt]

theorem keysOf_node (c : Color) (l : Node K T) (k : K) (v : T) (r : Node K T) :
    keysOf (.node c l k v r) = keysOf l ++ k :: keysOf r := by
  simp [keysOf, inorder]

theorem ordered_node_iff {c : Color} {l : Node Int T} {k : Int} {v : T}
    {r : Node Int T} :
    Ordered (.node c l k v r) ↔
      Ordered l ∧ Ordered r ∧ (∀ x ∈ keysOf l, x < k) ∧ ∀ y ∈ keysOf r, k < y := by
  simp only [Ordered, keysOf_node, List.pairwise_append, List.pairwise_cons,
    List.mem_cons]
  constructor
  · rintro ⟨hl, ⟨hk, hr⟩, hcross⟩
    exact ⟨hl, hr, fun x hx => hcross x hx k (Or.inl rfl), hk⟩
  · rintro ⟨hl, hr, hlk, hkr⟩
    refine ⟨hl, ⟨hkr, hr⟩, fun x hx y hy => ?_⟩
    rcases hy with rfl | hy
    · exact hlk x hx
    · exact lt_trans (hlk x hx) (hkr y hy)

theorem fst_mem_keysOf {t : Node K T} {e : K × T} (h : e ∈ inorder t) :
    e.1 ∈ keysOf t :=
  List.mem_map_of_mem Prod.fst h

theorem findNode_fst_irrel (cmp : K → K → Bool) (key : K) (t : Node K T)
    (p q : List (Crumb K T)) :
    (findNode cmp key t p).1 = (findNode cmp key t q).1 := by
  induction t generalizing p q with
  | nil => simp [findNode]
  | node c l k v r ihl ihr =>
    rw [findNode.eq_def]
    conv_rhs => rw [findNode.eq_def]
    by_cases he : areKeysEqual cmp key k = true
    · simp [he]
    · by_cases hc : cmp key k = true
      · cases l with
        | nil => simp [he, hc]
        | node lc ll lk lv lr => simp only [he, hc]; simpa using ihl _ _
      · cases r with
        | nil => simp [he, hc]
        | node rc rl rk rv rr => simp only [he, hc]; simpa using ihr _ _

theorem findNode_plug (cmp : K → K → Bool) (key : K) (t : Node K T)
    (p : List (Crumb K T)) :
    plug (findNode cmp key t p).1 (findNode cmp key t p).2 = plug t p := by
  induction t generalizing p with
  | nil => simp [findNode]
  | node c l k v r ihl ihr =>
    rw [findNode.eq_def]
    by_cases he : areKeysEqual cmp key k = true
    · simp [he]
    · by_cases hc : cmp key k = true
      · cases l with
        | nil => simp [he, hc]
        | node lc ll lk lv lr =>
          simp only [he, hc]
          simpa [plug, mkParent] using ihl (⟨true, c, k, v, r⟩ :: p)
      · cases r with
        | nil => simp [he, hc]
        | node rc rl rk rv rr =>
          simp only [he, hc]
          simpa [plug, mkParent] using ihr (⟨false, c, k, v, l⟩ :: p)

theorem findNode_fst_spec (cmp : K → K → Bool) (key : K) {t : Node K T}
    (h : t ≠ .nil) (p : List (Crumb K T)) :
    ∃ c l a w r, (findNode cmp key t p).1 = .node c l a w r ∧ (a, w) ∈ inorder t ∧
      (areKeysEqual cmp key a = true ∨
       (areKeysEqual cmp key a = false ∧ cmp key a = true ∧ l = .nil) ∨
       (areKeysEqual cmp key a = false ∧ cmp key a = false ∧ r = .nil)) := by
  induction t generalizing p with
  | nil => exact absurd rfl h
  | node c l k v r ihl ihr =>
    rw [findNode.eq_def]
    by_cases he : areKeysEqual cmp key k = true
    · exact ⟨c, l, k, v, r, by simp [he], by simp [inorder], Or.inl he⟩
    · by_cases hc : cmp key k = true
      · cases l with
        | nil =>
          refine ⟨c, .nil, k, v, r, by simp [he, hc], by simp [inorder], ?_⟩
          exact Or.inr (Or.inl ⟨by simpa using he, hc, rfl⟩)
        | node lc ll lk lv lr =>
          simp only [he, hc]
          rcases ihl (by simp) (⟨true, c, k, v, r⟩ :: p) with
            ⟨c2, l2, a2, w2, r2, hfst, hmem, hstop⟩
          refine ⟨c2, l2, a2, w2, r2, by simpa using hfst, ?_, hstop⟩
          simp only [inorder, List.mem_append, List.mem_cons] at hmem ⊢
          tauto
      · cases r with
        | nil =>
          refine ⟨c, l, k, v, .nil, by simp [he, hc], by simp [inorder], ?_⟩
          exact Or.inr (Or.inr ⟨by simpa using he, by simpa using hc, rfl⟩)
        | node rc rl rk rv rr =>
          simp only [he, hc]
          rcases ihr (by simp) (⟨false, c, k, v, l⟩ :: p) with
            ⟨c2, l2, a2, w2, r2, hfst, hmem, hstop⟩
          refine ⟨c2, l2, a2, w2, r2, by simpa using hfst, ?_, hstop⟩
          simp only [inorder, List.mem_append, List.mem_cons] at hmem ⊢
          tauto

theorem findNode_lastBlack (cmp : K → K → Bool) (key : K) (t : Node K T)
    (p : List (Crumb K T)) (hp : LastBlack p) (h0 : p = [] → colorOf t = Color.Black) :
    LastBlack ((findNode cmp key t p).2) := by
  induction t generalizing p with
  | nil => simpa [findNode] using hp
  | node c l k v r ihl ihr =>
    rw [findNode.eq_def]
    by_cases he : areKeysEqual cmp key k = true
    · simpa [he] using hp
    · by_cases hc : cmp key k = true
      · cases l with
        | nil => simpa [he, hc] using hp
        | node lc ll lk lv lr =>
          simp only [he, hc]
          have hp2 : LastBlack (⟨true, c, k, v, r⟩ :: p) := by
            cases p with
            | nil => exact h0 rfl
            | cons q qs => exact hp
          simpa using ihl (⟨true, c, k, v, r⟩ :: p) hp2 (by simp)
      · cases r with
        | nil => simpa [he, hc] using hp
        | node rc rl rk rv rr =>
          simp only [he, hc]
          have hp2 : LastBlack (⟨false, c, k, v, l⟩ :: p) := by
            cases p with
            | nil => exact h0 rfl
            | cons q qs => exact hp
          simpa using ihr (⟨false, c, k, v, l⟩ :: p) hp2 (by simp)

theorem findNode_present {t : Node Int T} (ho : Ordered t) {k : Int} {v : T}
    (hm : (k, v) ∈ inorder t) (p : List (Crumb Int T)) :
    ∃ c l r, (findNode intLt k t p).1 = .node c l k v r := by
  induction t generalizing p with
  | nil => simp [inorder] at hm
  | node c0 l0 k0 v0 r0 ihl ihr =>
    rcases ordered_node_iff.mp ho with ⟨hol, hor, hbl, hbr⟩
    rw [findNode.eq_def]
    simp only [inorder, List.mem_append, List.mem_cons, Prod.mk.injEq] at hm
    by_cases he : areKeysEqual intLt k k0 = true
    · have hk : k = k0 := (areKeysEqual_intLt _ _).mp he
      subst hk
      have hv : v = v0 := by
        rcases hm with hm | ⟨_, hv⟩ | hm
        · exact absurd (hbl _ (fst_mem_keysOf hm)) (lt_irrefl k)
        · exact hv
        · exact absurd (hbr _ (fst_mem_keysOf hm)) (lt_irrefl k)
      subst hv
      exact ⟨c0, l0, r0, by simp [he]⟩
    · have hne : k ≠ k0 := fun hh => he ((areKeysEqual_intLt _ _).mpr hh)
      by_cases hc : intLt k k0 = true
      · have hklt : k < k0 := (intLt_eq_true _ _).mp hc
        have hm2 : (k, v) ∈ inorder l0 := by
          rcases hm with hm | ⟨hk, _⟩ | hm
          · exact hm
          · exact absurd hk hne
          · exact absurd (hbr _ (fst_mem_keysOf hm)) (by omega)
        cases l0 with
        | nil => simp [inorder] at hm2
        | node lc ll lk lv lr =>
          simp only [he, hc]
          exact ihl hol hm2 _
      · have hk0lt : k0 < k := by
          have hnl : ¬k < k0 := by simpa [intLt_eq_true] using hc
          omega
        have hm2 : (k, v) ∈ inorder r0 := by
          rcases hm with hm | ⟨hk, _⟩ | hm
          · exact absurd (hbl _ (fst_mem_keysOf hm)) (by omega)
          · exact absurd hk hne
          · exact hm
        cases r0 with
        | nil => simp [inorder] at hm2
        | node rc rl rk rv rr =>
          simp only [he, hc]
          exact ihr hor hm2 _

theorem findNode_bounds {t : Node Int T} (ho : Ordered t) (h : t ≠ .nil) (k : Int)
    (p : List (Crumb Int T)) :
    ∃ c l a w r, (findNode intLt k t p).1 = .node c l a w r ∧ (a, w) ∈ inorder t ∧
      (∀ x ∈ keysOf t, x < k → x ≤ a) ∧ ∀ x ∈ keysOf t, k < x → a ≤ x := by
  induction t generalizing p with
  | nil => exact absurd rfl h
  | node c0 l0 k0 v0 r0 ihl ihr =>
    rcases ordered_node_iff.mp ho with ⟨hol, hor, hbl, hbr⟩
    rw [findNode.eq_def]
    by_cases he : areKeysEqual intLt k k0 = true
    · have hk : k = k0 := (areKeysEqual_intLt _ _).mp he
      subst hk
      exact ⟨c0, l0, k, v0, r0, by simp [he], by simp [inorder],
        fun x _ hx => by omega, fun x _ hx => by omega⟩
    · have hne : k ≠ k0 := fun hh => he ((areKeysEqual_intLt _ _).mpr hh)
      by_cases hc : intLt k k0 = true
      · have hklt : k < k0 := (intLt_eq_true _ _).mp hc
        cases l0 with
        | nil =>
          refine ⟨c0, .nil, k0, v0, r0, by simp [he, hc], by simp [inorder], ?_, ?_⟩
          · intro x hx hxk
            simp only [keysOf_node] at hx
            rcases List.mem_append.mp hx with hx | hx
            · simp [keysOf, inorder] at hx
            · rcases List.mem_cons.mp hx with rfl | hx
              · omega
              · have := hbr x hx
                omega
          · intro x hx _
            simp only [keysOf_node] at hx
            rcases List.mem_append.mp hx with hx | hx
            · simp [keysOf, inorder] at hx
            · rcases List.mem_cons.mp hx with rfl | hx
              · exact le_refl x
              · exact le_of_lt (hbr x hx)
        | node lc ll lk lv lr =>
          rcases ihl hol (by simp) (⟨true, c0, k0, v0, r0⟩ :: p) with
            ⟨c2, l2, a2, w2, r2, hfst, hmem2, hb1, hb2⟩
          have ha2 : a2 < k0 := hbl a2 (fst_mem_keysOf hmem2)
          refine ⟨c2, l2, a2, w2, r2, by simpa [he, hc] using hfst, ?_, ?_, ?_⟩
          · exact List.mem_append.mpr (Or.inl hmem2)
          · intro x hx hxk
            rw [keysOf_node] at hx
            rcases List.mem_append.mp hx with hx | hx
            · exact hb1 x hx hxk
            · rcases List.mem_cons.mp hx with rfl | hx
              · omega
              · have := hbr x hx
                omega
          · intro x hx hkx
            rw [keysOf_node] at hx
            rcases List.mem_append.mp hx with hx | hx
            · exact hb2 x hx hkx
            · rcases List.mem_cons.mp hx with rfl | hx
              · omega
              · have := hbr x hx
                omega
      · have hk0lt : k0 < k := by
          have hnl : ¬k < k0 := by simpa [intLt_eq_true] using hc
          omega
        cases r0 with
        | nil =>
          refine ⟨c0, l0, k0, v0, .nil, by simp [he, hc], by simp [inorder], ?_, ?_⟩
          · intro x hx _
            simp only [keysOf_node] at hx
            rcases List.mem_append.mp hx with hx | hx
            · exact le_of_lt (hbl x hx)
            · rcases List.mem_cons.mp hx with rfl | hx
              · exact le_refl x
              · simp [keysOf, inorder] at hx
          · intro x hx hkx
            simp only [keysOf_node] at hx
            rcases List.mem_append.mp hx with hx | hx
            · have := hbl x hx
              omega
            · rcases List.mem_cons.mp hx with rfl | hx
              · omega
              · simp [keysOf, inorder] at hx
        | node rc rl rk rv rr =>
          rcases ihr hor (by simp) (⟨false, c0, k0, v0, l0⟩ :: p) with
            ⟨c2, l2, a2, w2, r2, hfst, hmem2, hb1, hb2⟩
          have ha2 : k0 < a2 := hbr a2 (fst_mem_keysOf hmem2)
          refine ⟨c2, l2, a2, w2, r2, by simpa [he, hc] using hfst, ?_, ?_, ?_⟩
          · exact List.mem_append.mpr (Or.inr (List.mem_cons_of_mem _ hmem2))
          · intro x hx hxk
            rw [keysOf_node] at hx
            rcases List.mem_append.mp hx with hx | hx
            · have := hbl x hx
              omega
            · rcases List.mem_cons.mp hx with rfl | hx
              · omega
              · exact hb1 x hx hxk
          · intro x hx hkx
            rw [keysOf_node] at hx
            rcases List.mem_append.mp hx with hx | hx
            · have := hbl x hx
              omega
            · rcases List.mem_cons.mp hx with rfl | hx
              · omega
              · exact hb2 x hx hkx

theorem findNode_path_bounds {t : Node Int T} (ho : Ordered t) (k : Int)
    (p : List (Crumb Int T)) (hp : ∀ cr ∈ p, CrumbBound k cr) :
    ∀ cr ∈ (findNode intLt k t p).2, CrumbBound k cr := by
  induction t generalizing p with
  | nil => simpa [findNode] using hp
  | node c0 l0 k0 v0 r0 ihl ihr =>
    rcases ordered_node_iff.mp ho with ⟨hol, hor, hbl, hbr⟩
    rw [findNode.eq_def]
    by_cases he : areKeysEqual intLt k k0 = true
    · simpa [he] using hp
    · by_cases hc : intLt k k0 = true
      · have hklt : k < k0 := (intLt_eq_true _ _).mp hc
        cases l0 with
        | nil => simpa [he, hc] using hp
        | node lc ll lk lv lr =>
          simp only [he, hc]
          refine ihl hol (⟨true, c0, k0, v0, r0⟩ :: p) ?_
          intro cr hcr
          rcases List.mem_cons.mp hcr with rfl | hcr
          · exact ⟨hklt, fun x hx => by have := hbr x hx; omega⟩
          · exact hp cr hcr
      · have hk0lt : k0 < k := by
          have hne : k ≠ k0 := fun hh => he ((areKeysEqual_intLt _ _).mpr hh)
          have hnl : ¬k < k0 := by simpa [intLt_eq_true] using hc
          omega
        cases r0 with
        | nil => simpa [he, hc] using hp
        | node rc rl rk rv rr =>
          simp only [he, hc]
          refine ihr hor (⟨false, c0, k0, v0, l0⟩ :: p) ?_
          intro cr hcr
          rcases List.mem_cons.mp hcr with rfl | hcr
          · exact ⟨hk0lt, fun x hx => by have := hbl x hx; omega⟩
          · exact hp cr hcr

theorem ctxL_bounds {k : Int} {p : List (Crumb Int T)}
    (hp : ∀ cr ∈ p, CrumbBound k cr) : ∀ e ∈ ctxL p, e.1 < k := by
  induction p with
  | nil => simp [ctxL]
  | cons c p ih =>
    intro e he
    have hc := hp c (List.mem_cons_self c p)
    have ih2 := ih fun cr hcr => hp cr (List.mem_cons_of_mem _ hcr)
    by_cases hl : c.isLeft
    · rw [ctxL, if_pos hl] at he
      exact ih2 e he
    · rw [ctxL, if_neg hl] at he
      simp only [CrumbBound, if_neg hl] at hc
      rcases List.mem_append.mp he with he | he
      · rcases List.mem_append.mp he with he | he
        · exact ih2 e he
        · exact hc.2 e.1 (fst_mem_keysOf he)
      · rcases List.mem_singleton.mp he with rfl
        exact hc.1

theorem ctxR_bounds {k : Int} {p : List (Crumb Int T)}
    (hp : ∀ cr ∈ p, CrumbBound k cr) : ∀ e ∈ ctxR p, k < e.1 := by
  induction p with
  | nil => simp [ctxR]
  | cons c p ih =>
    intro e he
    have hc := hp c (List.mem_cons_self c p)
    have ih2 := ih fun cr hcr => hp cr (List.mem_cons_of_mem _ hcr)
    by_cases hl : c.isLeft
    · rw [ctxR, if_pos hl] at he
      simp only [CrumbBound, if_pos hl] at hc
      rcases List.mem_cons.mp he with rfl | he
      · exact hc.1
      · rcases List.mem_append.mp he with he | he
        · exact hc.2 e.1 (fst_mem_keysOf he)
        · exact ih2 e he
    · rw [ctxR, if_neg hl] at he
      exact ih2 e he

theorem lastBlack_tail {a : Crumb K T} {p : List (Crumb K T)}
    (h : LastBlack (a :: p)) : LastBlack p := by
  cases p with
  | nil => trivial
  | cons c q => exact h

theorem insertFixup_inorder (foc : Node K T) (p : List (Crumb K T)) :
    ∀ t2, insertFixup foc p = some t2 →
      inorder t2 = ctxL p ++ inorder foc ++ ctxR p := by
  induction foc, p using insertFixup.induct with
  | case1 t =>
    intro t2 h
    simp only [insertFixup, Option.some.injEq] at h
    simp [← h, ctxL, ctxR, inorder_blacken]
  | case2 t pc p hred =>
    intro t2 h
    rw [insertFixup.eq_def] at h
    simp only [if_pos hred, Option.some.injEq] at h
    simp [← h, inorder_blacken, inorder_plug]
  | case3 t pc hred =>
    intro t2 h
    rw [insertFixup.eq_def] at h
    simp only [if_neg hred] at h
    exact Option.noConfusion h
  | case4 t pc hred gc rest2 huncle ih =>
    intro t2 h
    rw [insertFixup.eq_def] at h
    simp only [if_neg hred, if_pos huncle] at h
    have := ih t2 h
    rw [this]
    by_cases hg : gc.isLeft <;> by_cases hpc : pc.isLeft <;>
      simp [ctxL, ctxR, inorder_mkParent, inorder_blacken, hg, hpc,
        List.append_assoc]
  | case5 pc hred gc rest2 huncle color xl xk xv xr hpc hg =>
    intro t2 h
    rw [insertFixup.eq_def] at h
    simp only [if_neg hred, if_neg huncle, hpc, hg, Option.some.injEq] at h
    simp [← h, inorder_blacken, inorder_plug, ctxL, ctxR, hpc, hg, inorder,
      List.append_assoc]
  | case6 pc hred gc rest2 huncle x hpc hg =>
    intro t2 h
    rw [insertFixup.eq_def] at h
    simp only [if_neg hred, if_neg huncle, hpc, hg, Option.some.injEq] at h
    simp [← h, inorder_blacken, inorder_plug, ctxL, ctxR, hpc, hg, inorder,
      List.append_assoc]
  | case7 pc hred gc rest2 huncle color xl xk xv xr hpc hg =>
    intro t2 h
    rw [insertFixup.eq_def] at h
    simp only [if_neg hred, if_neg huncle, hpc, hg, Option.some.injEq] at h
    simp [← h, inorder_blacken, inorder_plug, ctxL, ctxR, hpc, hg, inorder,
      List.append_assoc]
  | case8 pc hred gc rest2 huncle x hpc hg =>
    intro t2 h
    rw [insertFixup.eq_def] at h
    simp only [if_neg hred, if_neg huncle, hpc, hg, Option.some.injEq] at h
    simp [← h, inorder_blacken, inorder_plug, ctxL, ctxR, hpc, hg, inorder,
      List.append_assoc]
  | case9 pc hred gc rest2 huncle hx1 hx2 =>
    intro t2 h
    by_cases hg : gc.isLeft <;> by_cases hpc : pc.isLeft
    · exact (hx1 hg hpc).elim
    · rw [insertFixup.eq_def] at h
      simp only [if_neg hred, if_neg huncle, hg, hpc] at h
      exact Option.noConfusion h
    · rw [insertFixup.eq_def] at h
      simp only [if_neg hred, if_neg huncle, hg, hpc] at h
      exact Option.noConfusion h
    · exact (hx2 (Bool.not_eq_true _ ▸ Bool.of_not_eq_true hg) (Bool.of_not_eq_true hpc)).elim

theorem insertFixup_isSome (foc : Node K T) (p : List (Crumb K T)) :
    foc ≠ .nil → LastBlack p → (insertFixup foc p).isSome := by
  induction foc, p using insertFixup.induct with
  | case1 t =>
    intro _ _
    simp [insertFixup]
  | case2 t pc p hred =>
    intro _ _
    rw [insertFixup.eq_def]
    simp [if_pos hred]
  | case3 t pc hred =>
    intro _ hb
    have : pc.color = Color.Black := hb
    simp [this] at hred
  | case4 t pc hred gc rest2 huncle ih =>
    intro _ hb
    rw [insertFixup.eq_def]
    simp only [if_neg hred, if_pos huncle]
    exact ih (mkParent_ne_nil _ _) (lastBlack_tail (lastBlack_tail hb))
  | case5 pc hred gc rest2 huncle color xl xk xv xr hpc hg =>
    intro _ _
    rw [insertFixup.eq_def]
    simp [if_neg hred, if_neg huncle, hpc, hg]
  | case6 pc hred gc rest2 huncle x hpc hg =>
    intro _ _
    rw [insertFixup.eq_def]
    simp [if_neg hred, if_neg huncle, hpc, hg]
  | case7 pc hred gc rest2 huncle color xl xk xv xr hpc hg =>
    intro _ _
    rw [insertFixup.eq_def]
    simp [if_neg hred, if_neg huncle, hpc, hg]
  | case8 pc hred gc rest2 huncle x hpc hg =>
    intro _ _
    rw [insertFixup.eq_def]
    simp [if_neg hred, if_neg huncle, hpc, hg]
  | case9 pc hred gc rest2 huncle hx1 hx2 =>
    intro hf _
    exact absurd rfl hf

theorem insertFixup_colorOf (foc : Node K T) (p : List (Crumb K T)) :
    foc ≠ .nil → ∀ t2, insertFixup foc p = some t2 → colorOf t2 = Color.Black := by
  induction foc, p using insertFixup.induct with
  | case1 t =>
    intro hf t2 h
    simp only [insertFixup, Option.some.injEq] at h
    rw [← h]
    exact colorOf_blacken hf
  | case2 t pc p hred =>
    intro hf t2 h
    rw [insertFixup.eq_def] at h
    simp only [if_pos hred, Option.some.injEq] at h
    rw [← h]
    exact colorOf_blacken (plug_ne_nil _ hf)
  | case3 t pc hred =>
    intro hf t2 h
    rw [insertFixup.eq_def] at h
    simp only [if_neg hred] at h
    exact Option.noConfusion h
  | case4 t pc hred gc rest2 huncle ih =>
    intro hf t2 h
    rw [insertFixup.eq_def] at h
    simp only [if_neg hred, if_pos huncle] at h
    exact ih (mkParent_ne_nil _ _) t2 h
  | case5 pc hred gc rest2 huncle color xl xk xv xr hpc hg =>
    intro hf t2 h
    rw [insertFixup.eq_def] at h
    simp only [if_neg hred, if_neg huncle, hpc, hg, Option.some.injEq] at h
    rw [← h]
    exact colorOf_blacken (plug_ne_nil _ (by simp))
  | case6 pc hred gc rest2 huncle x hpc hg =>
    intro hf t2 h
    rw [insertFixup.eq_def] at h
    simp only [if_neg hred, if_neg huncle, hpc, hg, Option.some.injEq] at h
    rw [← h]
    exact colorOf_blacken (plug_ne_nil _ (by simp))
  | case7 pc hred gc rest2 huncle color xl xk xv xr hpc hg =>
    intro hf t2 h
    rw [insertFixup.eq_def] at h
    simp only [if_neg hred, if_neg huncle, hpc, hg, Option.some.injEq] at h
    rw [← h]
    exact colorOf_blacken (plug_ne_nil _ (by simp))
  | case8 pc hred gc rest2 huncle x hpc hg =>
    intro hf t2 h
    rw [insertFixup.eq_def] at h
    simp only [if_neg hred, if_neg huncle, hpc, hg, Option.some.injEq] at h
    rw [← h]
    exact colorOf_blacken (plug_ne_nil _ (by simp))
  | case9 pc hred gc rest2 huncle hx1 hx2 =>
    intro hf t2 h
    exact absurd rfl hf

theorem pairwise_insert_mid {L M : List (Int × T)} {k : Int} {v : T}
    (hs : List.Pairwise (· < ·) ((L ++ M).map Prod.fst))
    (hL : ∀ e ∈ L, e.1 < k) (hM : ∀ e ∈ M, k < e.1) :
    List.Pairwise (· < ·) ((L ++ (k, v) :: M).map Prod.fst) := by
  simp only [List.map_append, List.pairwise_append, List.map_cons,
    List.pairwise_cons, List.mem_map, List.mem_cons] at hs ⊢
  rcases hs with ⟨hsL, hsM, hcross⟩
  refine ⟨hsL, ⟨?_, hsM⟩, ?_⟩
  · rintro y ⟨e, he, rfl⟩
    exact hM e he
  · rintro x ⟨e, he, rfl⟩ y hy
    rcases hy with rfl | ⟨f, hf, rfl⟩
    · exact hL e he
    · exact lt_trans (hL e he) (hM f hf)

theorem pairwise_remove_mid {L M : List (Int × T)} {k : Int} {w : T}
    (hs : List.Pairwise (· < ·) ((L ++ (k, w) :: M).map Prod.fst)) :
    List.Pairwise (· < ·) ((L ++ M).map Prod.fst) ∧
      k ∉ (L ++ M).map Prod.fst := by
  simp only [List.map_append, List.pairwise_append, List.map_cons,
    List.pairwise_cons, List.mem_map, List.mem_cons] at hs
  rcases hs with ⟨hsL, ⟨hkM, hsM⟩, hcross⟩
  constructor
  · simp only [List.map_append, List.pairwise_append, List.mem_map]
    exact ⟨hsL, hsM, fun x hx y hy => hcross x hx y (Or.inr hy)⟩
  · intro hmem
    simp only [List.map_append, List.mem_append, List.mem_map] at hmem
    rcases hmem with ⟨e, he, hek⟩ | ⟨e, he, hek⟩
    · have := hcross k ⟨e, he, hek⟩ k (Or.inl rfl)
      omega
    · have := hkM k ⟨e, he, hek⟩
      omega

theorem ordered_focus {t foc : Node Int T} {p : List (Crumb Int T)}
    (ho : Ordered t) (hdecomp : inorder t = ctxL p ++ inorder foc ++ ctxR p) :
    Ordered foc := by
  have hsub : List.Sublist (inorder foc) (inorder t) := by
    rw [hdecomp]
    exact List.Sublist.trans (List.sublist_append_right (ctxL p) (inorder foc))
      (List.sublist_append_left (ctxL p ++ inorder foc) (ctxR p))
  exact List.Pairwise.sublist (hsub.map Prod.fst) ho

theorem atVal_present {t : Node Int T} (ho : Ordered t) {k : Int} {v : T}
    (hm : (k, v) ∈ inorder t) : atVal intLt t k = some v := by
  cases t with
  | nil => simp [inorder] at hm
  | node c0 l0 k0 v0 r0 =>
    rcases hfp : findNode intLt k (Node.node c0 l0 k0 v0 r0) [] with ⟨foc, path⟩
    rcases findNode_present ho hm ([] : List (Crumb Int T)) with ⟨c, l, r, hfst⟩
    rw [hfp] at hfst
    simp only at hfst
    subst hfst
    rw [atVal.eq_def]
    simp [hfp, (areKeysEqual_intLt k k).mpr rfl]

theorem atVal_absent {t : Node Int T} {k : Int} (hm : k ∉ keysOf t) :
    atVal intLt t k = none := by
  cases t with
  | nil => simp [atVal]
  | node c0 l0 k0 v0 r0 =>
    rcases hfp : findNode intLt k (Node.node c0 l0 k0 v0 r0) [] with ⟨foc, path⟩
    rcases findNode_fst_spec intLt k (t := Node.node c0 l0 k0 v0 r0) (by simp)
      ([] : List (Crumb Int T)) with ⟨c, l, a, w, r, hfst, hmem, _⟩
    rw [hfp] at hfst
    simp only at hfst
    subst hfst
    have hne : areKeysEqual intLt k a = false := by
      rw [Bool.eq_false_iff]
      intro hh
      exact hm ((areKeysEqual_intLt k a).mp hh ▸ fst_mem_keysOf hmem)
    rw [atVal.eq_def]
    simp [hfp, hne]

theorem insert_present {t : Node Int T} (ho : Ordered t) {k : Int} {v : T}
    (hm : (k, v) ∈ inorder t) (w : T) : insert intLt t k w = some (false, t) := by
  cases t with
  | nil => simp [inorder] at hm
  | node c0 l0 k0 v0 r0 =>
    rcases hfp : findNode intLt k (Node.node c0 l0 k0 v0 r0) [] with ⟨foc, path⟩
    rcases findNode_present ho hm ([] : List (Crumb Int T)) with ⟨c, l, r, hfst⟩
    rw [hfp] at hfst
    simp only at hfst
    subst hfst
    rw [insert.eq_def]
    simp [hfp, (areKeysEqual_intLt k k).mpr rfl]

theorem insert_absent {t : Node Int T} (ho : Ordered t) (hb : colorOf t = Color.Black)
    {k : Int} (hk : k ∉ keysOf t) (v : T) :
    ∃ t2 L M, insert intLt t k v = some (true, t2) ∧
      inorder t = L ++ M ∧ inorder t2 = L ++ (k, v) :: M ∧
      (∀ e ∈ L, e.1 < k) ∧ ∀ e ∈ M, k < e.1 := by
  cases t with
  | nil =>
    exact ⟨.node .Black .nil k v .nil, [], [], by simp [insert], by simp [inorder],
      by simp [inorder], by simp, by simp⟩
  | node c0 l0 k0 v0 r0 =>
    rcases hfp : findNode intLt k (Node.node c0 l0 k0 v0 r0) [] with ⟨foc, path⟩
    rcases findNode_fst_spec intLt k (t := Node.node c0 l0 k0 v0 r0) (by simp)
      ([] : List (Crumb Int T)) with ⟨c, l, a, w, r, hfst, hmem, hstop⟩
    rw [hfp] at hfst
    simp only at hfst
    subst hfst
    have hplug : plug (Node.node c l a w r) path = Node.node c0 l0 k0 v0 r0 := by
      have hq := findNode_plug intLt k (Node.node c0 l0 k0 v0 r0) []
      rw [hfp] at hq
      simpa [plug] using hq
    have hdecomp : inorder (Node.node c0 l0 k0 v0 r0) =
        ctxL path ++ inorder (Node.node c l a w r) ++ ctxR path := by
      rw [← hplug, inorder_plug]
    have hofoc : Ordered (Node.node c l a w r) := ordered_focus ho hdecomp
    have hka : k ≠ a := fun hh => hk (hh ▸ fst_mem_keysOf hmem)
    have hne : areKeysEqual intLt k a = false := by
      rw [Bool.eq_false_iff]
      exact fun hh => hka ((areKeysEqual_intLt k a).mp hh)
    have hcr : ∀ cr ∈ path, CrumbBound k cr := by
      have hq := findNode_path_bounds ho k ([] : List (Crumb Int T)) (by simp)
      rw [hfp] at hq
      simpa using hq
    have hctxL : ∀ e ∈ ctxL path, e.1 < k := ctxL_bounds hcr
    have hctxR : ∀ e ∈ ctxR path, k < e.1 := ctxR_bounds hcr
    have hlbp : LastBlack path := by
      have hq := findNode_lastBlack intLt k (Node.node c0 l0 k0 v0 r0) [] trivial
        (fun _ => hb)
      rw [hfp] at hq
      simpa using hq
    rcases ordered_node_iff.mp hofoc with ⟨_, _, hfl, hfr⟩
    rcases hstop with hstop | ⟨_, hlt, hlnil⟩ | ⟨_, hnlt, hrnil⟩
    · exact absurd ((areKeysEqual_intLt k a).mp hstop) hka
    · have hklt : k < a := (intLt_eq_true _ _).mp hlt
      subst hlnil
      have hlb2 : LastBlack (⟨true, c, a, w, r⟩ :: path) := by
        cases path with
        | nil =>
          have heq : Node.node c Node.nil a w r = Node.node c0 l0 k0 v0 r0 := by
            simpa [plug] using hplug
          have hc : c = c0 := by injection heq
          show c = Color.Black
          rw [hc]
          exact hb
        | cons q qs => exact hlbp
      have hsome := insertFixup_isSome (.node .Red .nil k v .nil)
        (⟨true, c, a, w, r⟩ :: path) (by simp) hlb2
      rcases Option.isSome_iff_exists.mp hsome with ⟨t2, ht2⟩
      have hino2 := insertFixup_inorder _ _ t2 ht2
      have hanotlt : intLt a k = false := by
        simp only [intLt, decide_eq_false_iff_not]
        omega
      refine ⟨t2, ctxL path, ((a, w) :: inorder r) ++ ctxR path, ?_, ?_, ?_, ?_, ?_⟩
      · rw [insert.eq_def]
        simp [hfp, hne, hanotlt, ht2]
      · rw [hdecomp]
        simp [inorder, List.append_assoc]
      · rw [hino2]
        simp [ctxL, ctxR, inorder, List.append_assoc]
      · exact hctxL
      · intro e he
        simp only [List.cons_append, List.mem_cons, List.mem_append] at he
        rcases he with rfl | he | he
        · exact hklt
        · exact lt_trans hklt (hfr e.1 (fst_mem_keysOf he))
        · exact hctxR e he
    · have halt : a < k := by
        have hz : ¬k < a := by simpa [intLt, decide_eq_false_iff_not] using hnlt
        omega
      subst hrnil
      have hlb2 : LastBlack (⟨false, c, a, w, l⟩ :: path) := by
        cases path with
        | nil =>
          have heq : Node.node c l a w Node.nil = Node.node c0 l0 k0 v0 r0 := by
            simpa [plug] using hplug
          have hc : c = c0 := by injection heq
          show c = Color.Black
          rw [hc]
          exact hb
        | cons q qs => exact hlbp
      have hsome := insertFixup_isSome (.node .Red .nil k v .nil)
        (⟨false, c, a, w, l⟩ :: path) (by simp) hlb2
      rcases Option.isSome_iff_exists.mp hsome with ⟨t2, ht2⟩
      have hino2 := insertFixup_inorder _ _ t2 ht2
      have halt2 : intLt a k = true := (intLt_eq_true _ _).mpr halt
      refine ⟨t2, (ctxL path ++ inorder l) ++ [(a, w)], ctxR path, ?_, ?_, ?_, ?_, ?_⟩
      · rw [insert.eq_def]
        simp [hfp, hne, halt2, ht2]
      · rw [hdecomp]
        simp [inorder, List.append_assoc]
      · rw [hino2]
        simp [ctxL, ctxR, inorder, List.append_assoc]
      · intro e he
        simp only [List.mem_append, List.mem_singleton] at he
        rcases he with (he | he) | rfl
        · exact hctxL e he
        · exact lt_trans (hfl e.1 (fst_mem_keysOf he)) halt
        · exact halt
      · exact hctxR

theorem eraseFixupStep_spec (foc : Node K T) (p : List (Crumb K T)) (s : Bool) :
    ∀ res, eraseFixupStep foc p s = some res →
      (match res with
       | Sum.inl t2 => inorder t2 = ctxL p ++ inorder foc ++ ctxR p
       | Sum.inr (f2, p2, _) =>
         ctxL p2 ++ inorder f2 ++ ctxR p2 = ctxL p ++ inorder foc ++ ctxR p) := by
  intro res h
  cases foc with
  | nil => simp [eraseFixupStep] at h
  | node c l k v r =>
    by_cases hs : s = true
    · subst hs
      by_cases hcl : colorOf l = Color.Red
      · simp [eraseFixupStep, hcl] at h
        first
        | subst h
        | rw [← h]
        simp [inorder_plug, inorder, inorder_blacken]
      · cases r with
        | nil => simp [eraseFixupStep, hcl, colorOf_nil, colorOf_node] at h
        | node rc rl rk rv rr =>
          by_cases hrc : rc = Color.Red
          · subst hrc
            cases rl with
            | nil => simp [eraseFixupStep, hcl, colorOf_nil, colorOf_node] at h
            | node bc bl bk bv br =>
              by_cases hbb : colorOf bl = Color.Black ∧ colorOf br = Color.Black
              · simp [eraseFixupStep, hcl, colorOf_nil, colorOf_node, hbb] at h
                first
                | subst h
                | rw [← h]
                simp [ctxL, ctxR, inorder, inorder_mkParent, List.append_assoc]
              · by_cases hfar : colorOf br = Color.Black
                · cases bl with
                  | nil => exact absurd ⟨rfl, hfar⟩ hbb
                  | node blc bll blk blv blr =>
                    have hblc : ¬blc = Color.Black := fun hh =>
                      hbb ⟨by simp [colorOf_node, hh], hfar⟩
                    simp [eraseFixupStep, hcl, colorOf_nil, colorOf_node, hfar,
                      hblc] at h
                    first
                    | subst h
                    | rw [← h]
                    simp [ctxL, ctxR, inorder, inorder_blacken, inorder_plug,
                      List.append_assoc]
                · cases br with
                  | nil => simp [colorOf_nil] at hfar
                  | node brc brl brk brv brr =>
                    have hbrc : ¬brc = Color.Black := by
                      simpa [colorOf_node] using hfar
                    simp [eraseFixupStep, hcl, colorOf_nil, colorOf_node,
                      hbrc] at h
                    first
                    | subst h
                    | rw [← h]
                    simp [ctxL, ctxR, inorder, inorder_blacken, inorder_plug,
                      List.append_assoc]
          · by_cases hbb : colorOf rl = Color.Black ∧ colorOf rr = Color.Black
            · cases p with
              | nil =>
                simp [eraseFixupStep, hcl, colorOf_nil, colorOf_node, hrc,
                  hbb] at h
                first
                | subst h
                | rw [← h]
                simp [ctxL, ctxR, inorder, inorder_blacken, List.append_assoc]
              | cons pc rest =>
                simp [eraseFixupStep, hcl, colorOf_nil, colorOf_node, hrc,
                  hbb] at h
                first
                | subst h
                | rw [← h]
                by_cases hpc : pc.isLeft <;>
                  simp [ctxL, ctxR, inorder, inorder_mkParent, hpc,
                    List.append_assoc]
            · by_cases hfar : colorOf rr = Color.Black
              · cases rl with
                | nil => exact absurd ⟨rfl, hfar⟩ hbb
                | node rlc rll rlk rlv rlr =>
                  have hrlc : ¬rlc = Color.Black := fun hh =>
                    hbb ⟨by simp [colorOf_node, hh], hfar⟩
                  simp [eraseFixupStep, hcl, colorOf_nil, colorOf_node, hrc,
                    hfar, hrlc] at h
                  first
                  | subst h
                  | rw [← h]
                  simp [ctxL, ctxR, inorder, inorder_blacken, inorder_plug,
                    List.append_assoc]
              · cases rr with
                | nil => simp [colorOf_nil] at hfar
                | node rrc rrl rrk rrv rrr =>
                  have hrrc : ¬rrc = Color.Black := by
                    simpa [colorOf_node] using hfar
                  simp [eraseFixupStep, hcl, colorOf_nil, colorOf_node, hrc,
                    hrrc] at h
                  first
                  | subst h
                  | rw [← h]
                  simp [ctxL, ctxR, inorder, inorder_blacken, inorder_plug,
                    List.append_assoc]
    · rw [Bool.not_eq_true] at hs
      subst hs
      by_cases hcr : colorOf r = Color.Red
      · simp [eraseFixupStep, hcr] at h
        first
        | subst h
        | rw [← h]
        simp [inorder_plug, inorder, inorder_blacken]
      · cases l with
        | nil => simp [eraseFixupStep, hcr, colorOf_nil, colorOf_node] at h
        | node lc ll lk lv lr =>
          by_cases hlc : lc = Color.Red
          · subst hlc
            cases lr with
            | nil => simp [eraseFixupStep, hcr, colorOf_nil, colorOf_node] at h
            | node bc bl bk bv br =>
              by_cases hbb : colorOf bl = Color.Black ∧ colorOf br = Color.Black
              · simp [eraseFixupStep, hcr, colorOf_nil, colorOf_node, hbb] at h
                first
                | subst h
                | rw [← h]
                simp [ctxL, ctxR, inorder, inorder_mkParent, List.append_assoc]
              · by_cases hfar : colorOf bl = Color.Black
                · cases br with
                  | nil => exact absurd ⟨hfar, rfl⟩ hbb
                  | node brc brl brk brv brr =>
                    have hbrc : ¬brc = Color.Black := fun hh =>
                      hbb ⟨hfar, by simp [colorOf_node, hh]⟩
                    simp [eraseFixupStep, hcr, colorOf_nil, colorOf_node, hfar,
                      hbrc] at h
                    first
                    | subst h
                    | rw [← h]
                    simp [ctxL, ctxR, inorder, inorder_blacken, inorder_plug,
                      List.append_assoc]
                · cases bl with
                  | nil => simp [colorOf_nil] at hfar
                  | node blc bll blk blv blr =>
                    have hblc : ¬blc = Color.Black := by
                      simpa [colorOf_node] using hfar
                    simp [eraseFixupStep, hcr, colorOf_nil, colorOf_node,
                      hblc] at h
                    first
                    | subst h
                    | rw [← h]
                    simp [ctxL, ctxR, inorder, inorder_blacken, inorder_plug,
                      List.append_assoc]
          · by_cases hbb : colorOf ll = Color.Black ∧ colorOf lr = Color.Black
            · cases p with
              | nil =>
                simp [eraseFixupStep, hcr, colorOf_nil, colorOf_node, hlc,
                  hbb] at h
                first
                | subst h
                | rw [← h]
                simp [ctxL, ctxR, inorder, inorder_blacken, List.append_assoc]
              | cons pc rest =>
                simp [eraseFixupStep, hcr, colorOf_nil, colorOf_node, hlc,
                  hbb] at h
                first
                | subst h
                | rw [← h]
                by_cases hpc : pc.isLeft <;>
                  simp [ctxL, ctxR, inorder, inorder_mkParent, hpc,
                    List.append_assoc]
            · by_cases hfar : colorOf ll = Color.Black
              · cases lr with
                | nil => exact absurd ⟨hfar, rfl⟩ hbb
                | node lrc lrl lrk lrv lrr =>
                  have hlrc : ¬lrc = Color.Black := fun hh =>
                    hbb ⟨hfar, by simp [colorOf_node, hh]⟩
                  simp [eraseFixupStep, hcr, colorOf_nil, colorOf_node, hlc,
                    hfar, hlrc] at h
                  first
                  | subst h
                  | rw [← h]
                  simp [ctxL, ctxR, inorder, inorder_blacken, inorder_plug,
                    List.append_assoc]
              · cases ll with
                | nil => simp [colorOf_nil] at hfar
                | node llc lll llk llv llr =>
                  have hllc : ¬llc = Color.Black := by
                    simpa [colorOf_node] using hfar
                  simp [eraseFixupStep, hcr, colorOf_nil, colorOf_node, hlc,
                    hllc] at h
                  first
                  | subst h
                  | rw [← h]
                  simp [ctxL, ctxR, inorder, inorder_blacken, inorder_plug,
                    List.append_assoc]

theorem eraseFixup_inorder (fuel : Nat) (foc : Node K T) (p : List (Crumb K T))
    (s : Bool) : ∀ t2, eraseFixup fuel foc p s = some t2 →
      inorder t2 = ctxL p ++ inorder foc ++ ctxR p := by
  induction fuel generalizing foc p s with
  | zero =>
    intro t2 h
    simp [eraseFixup] at h
  | succ fuel ih =>
    intro t2 h
    simp only [eraseFixup] at h
    cases hstep : eraseFixupStep foc p s with
    | none => rw [hstep] at h; simp at h
    | some res =>
      rw [hstep] at h
      have hspec := eraseFixupStep_spec foc p s res hstep
      cases res with
      | inl t3 =>
        simp only [Option.some.injEq] at h
        subst h
        exact hspec
      | inr st =>
        rcases st with ⟨f2, p2, s2⟩
        simp only at h
        exact (ih f2 p2 s2 t2 h).trans hspec

theorem minNodeZ_plug (t : Node K T) (p : List (Crumb K T)) :
    plug (minNodeZ t p).1 (minNodeZ t p).2 = plug t p := by
  induction t generalizing p with
  | nil => simp [minNodeZ]
  | node c l k v r ihl ihr =>
    cases l with
    | nil => simp [minNodeZ]
    | node lc ll lk lv lr =>
      rw [minNodeZ.eq_def]
      simpa [plug, mkParent] using ihl (⟨true, c, k, v, r⟩ :: p)

theorem minNodeZ_fst {t : Node K T} (h : t ≠ .nil) (p : List (Crumb K T)) :
    ∃ sc sk sv sr, (minNodeZ t p).1 = .node sc .nil sk sv sr := by
  induction t generalizing p with
  | nil => exact absurd rfl h
  | node c l k v r ihl ihr =>
    cases l with
    | nil => exact ⟨c, k, v, r, by simp [minNodeZ]⟩
    | node lc ll lk lv lr =>
      rw [minNodeZ.eq_def]
      simpa using ihl (by simp) (⟨true, c, k, v, r⟩ :: p)

theorem minNodeZ_crumbs (t : Node K T) (p : List (Crumb K T))
    (hp : ∀ cr ∈ p, cr.isLeft = true) :
    ∀ cr ∈ (minNodeZ t p).2, cr.isLeft = true := by
  induction t generalizing p with
  | nil => simpa [minNodeZ] using hp
  | node c l k v r ihl ihr =>
    cases l with
    | nil => simpa [minNodeZ] using hp
    | node lc ll lk lv lr =>
      rw [minNodeZ.eq_def]
      have hp2 : ∀ cr ∈ (⟨true, c, k, v, r⟩ : Crumb K T) :: p, cr.isLeft = true := by
        intro cr hcr
        rcases List.mem_cons.mp hcr with rfl | hcr
        · rfl
        · exact hp cr hcr
      simpa using ihl (⟨true, c, k, v, r⟩ :: p) hp2

theorem ctxL_left (p : List (Crumb K T)) (hp : ∀ cr ∈ p, cr.isLeft = true) :
    ctxL p = [] := by
  induction p with
  | nil => simp [ctxL]
  | cons c q ih =>
    rw [ctxL, if_pos (hp c (List.mem_cons_self c q))]
    exact ih fun cr hcr => hp cr (List.mem_cons_of_mem _ hcr)

theorem eraseNode_inorder (fuel : Nat) (c : Color) (l : Node K T) (k : K) (v : T)
    (r : Node K T) (path : List (Crumb K T)) :
    ∀ t2, eraseNode fuel (.node c l k v r) path = some t2 →
      inorder t2 = ctxL path ++ (inorder l ++ inorder r) ++ ctxR path := by
  intro t2 h
  rw [eraseNode.eq_def] at h
  cases l with
  | nil =>
    cases r with
    | nil =>
      by_cases hc : c = Color.Black
      · cases path with
        | nil => simp [hc] at h
        | cons pc rest =>
          simp only [hc, if_pos rfl] at h
          have := eraseFixup_inorder fuel (mkParent pc .nil) rest pc.isLeft t2 (by simpa using h)
          rw [this]
          by_cases hpc : pc.isLeft <;>
            simp [ctxL, ctxR, inorder, inorder_mkParent, hpc, List.append_assoc]
      · simp [hc] at h
        first
        | subst h
        | rw [← h]
        simp [inorder_plug, inorder]
    | node rc rl rk rv rr =>
      by_cases hc : c = Color.Black
      · cases path with
        | nil => simp [hc] at h
        | cons pc rest =>
          simp only [hc, if_pos rfl] at h
          have := eraseFixup_inorder fuel (mkParent pc (.node rc rl rk rv rr)) rest
            pc.isLeft t2 (by simpa using h)
          rw [this]
          by_cases hpc : pc.isLeft <;>
            simp [ctxL, ctxR, inorder, inorder_mkParent, hpc, List.append_assoc]
      · simp [hc] at h
        first
        | subst h
        | rw [← h]
        simp [inorder_plug, inorder]
  | node lc ll lk lv lr =>
    cases r with
    | nil =>
      by_cases hc : c = Color.Black
      · cases path with
        | nil => simp [hc] at h
        | cons pc rest =>
          simp only [hc, if_pos rfl] at h
          have := eraseFixup_inorder fuel (mkParent pc (.node lc ll lk lv lr)) rest
            pc.isLeft t2 (by simpa using h)
          rw [this]
          by_cases hpc : pc.isLeft <;>
            simp [ctxL, ctxR, inorder, inorder_mkParent, hpc, List.append_assoc]
      · simp [hc] at h
        first
        | subst h
        | rw [← h]
        simp [inorder_plug, inorder]
    | node rc rl rk rv rr =>
      cases rl with
      | nil =>
        by_cases hrc : rc = Color.Black
        · simp only [hrc, if_pos rfl] at h
          have := eraseFixup_inorder fuel
            (.node c (.node lc ll lk lv lr) rk rv rr) path false t2 (by simpa using h)
          rw [this]
          simp [inorder, List.append_assoc]
        · simp [hrc] at h
          first
          | subst h
          | rw [← h]
          simp [inorder_plug, inorder, List.append_assoc]
      | node rlc rll rlk rlv rlr =>
        rcases hmz : minNodeZ (Node.node rc (.node rlc rll rlk rlv rlr) rk rv rr)
          ([] : List (Crumb K T)) with ⟨sfoc, ip⟩
        rcases minNodeZ_fst (t := Node.node rc (.node rlc rll rlk rlv rlr) rk rv rr)
          (by simp) ([] : List (Crumb K T)) with ⟨sc, sk, sv, sr, hsf⟩
        rw [hmz] at hsf
        simp only at hsf
        subst hsf
        have hplug : plug (Node.node sc .nil sk sv sr) ip =
            Node.node rc (.node rlc rll rlk rlv rlr) rk rv rr := by
          have hq := minNodeZ_plug (Node.node rc (.node rlc rll rlk rlv rlr) rk rv rr)
            ([] : List (Crumb K T))
          rw [hmz] at hq
          simpa [plug] using hq
        have hctxl : ctxL ip = [] := by
          refine ctxL_left ip ?_
          have hq := minNodeZ_crumbs (Node.node rc (.node rlc rll rlk rlv rlr) rk rv rr)
            ([] : List (Crumb K T)) (by simp)
          rw [hmz] at hq
          simpa using hq
        have hinr : inorder (Node.node rc (.node rlc rll rlk rlv rlr) rk rv rr) =
            (sk, sv) :: (inorder sr ++ ctxR ip) := by
          rw [← hplug, inorder_plug, hctxl]
          simp [inorder]
        have hinp : inorder (plug sr ip) = inorder sr ++ ctxR ip := by
          rw [inorder_plug, hctxl]
          simp
        by_cases hsc : sc = Color.Black
        · simp only [hmz, hsc, if_pos rfl] at h
          have := eraseFixup_inorder fuel
            (.node c (.node lc ll lk lv lr) sk sv (plug sr ip)) path true t2
            (by simpa using h)
          rw [this, hinr]
          simp [inorder, hinp, List.append_assoc]
        · simp [hmz, hsc] at h
          first
          | subst h
          | rw [← h]
          rw [inorder_plug, hinr]
          simp [inorder, hinp, List.append_assoc]

theorem erase_spec {t : Node Int T} (ho : Ordered t) (k : Int) :
    ∀ b t2, erase intLt t k = some (b, t2) →
      (b = false ∧ t2 = t ∧ k ∉ keysOf t) ∨
      (b = true ∧ ∃ L w M, inorder t = L ++ (k, w) :: M ∧ inorder t2 = L ++ M) := by
  cases t with
  | nil =>
    intro b t2 h
    simp only [erase, Option.some.injEq, Prod.mk.injEq] at h
    exact Or.inl ⟨h.1.symm, h.2.symm, by simp [keysOf, inorder]⟩
  | node c0 l0 k0 v0 r0 =>
    intro b t2 h
    rcases hfp : findNode intLt k (Node.node c0 l0 k0 v0 r0) [] with ⟨foc, path⟩
    rcases findNode_fst_spec intLt k (t := Node.node c0 l0 k0 v0 r0) (by simp)
      ([] : List (Crumb Int T)) with ⟨c, l, a, w, r, hfst, hmem, _⟩
    rw [hfp] at hfst
    simp only at hfst
    subst hfst
    have hplug : plug (Node.node c l a w r) path = Node.node c0 l0 k0 v0 r0 := by
      have hq := findNode_plug intLt k (Node.node c0 l0 k0 v0 r0) []
      rw [hfp] at hq
      simpa [plug] using hq
    have hdecomp : inorder (Node.node c0 l0 k0 v0 r0) =
        ctxL path ++ inorder (Node.node c l a w r) ++ ctxR path := by
      rw [← hplug, inorder_plug]
    by_cases heq : areKeysEqual intLt k a = true
    · have hka : k = a := (areKeysEqual_intLt _ _).mp heq
      subst hka
      rw [erase.eq_def] at h
      simp only [hfp, heq, if_pos rfl] at h
      cases heN : eraseNode (path.length + sizeOf' (Node.node c l k w r) + 4)
          (Node.node c l k w r) path with
      | none => rw [heN] at h; simp at h
      | some t3 =>
        rw [heN] at h
        simp at h
        obtain ⟨hb, ht⟩ := h
        subst hb
        subst ht
        have hino := eraseNode_inorder _ c l k w r path t3 heN
        refine Or.inr ⟨rfl, ctxL path ++ inorder l, w, inorder r ++ ctxR path, ?_, ?_⟩
        · rw [hdecomp]
          simp [inorder, List.append_assoc]
        · rw [hino]
          simp [List.append_assoc]
    · rw [erase.eq_def] at h
      simp [hfp, heq] at h
      obtain ⟨hb, ht⟩ := h
      subst hb
      subst ht
      refine Or.inl ⟨rfl, rfl, fun hk => ?_⟩
      rcases List.mem_map.mp hk with ⟨e, he, hek⟩
      have he2 : (k, e.2) ∈ inorder (Node.node c0 l0 k0 v0 r0) := by
        have : e = (k, e.2) := by
          rw [← hek]
        rw [← this]
        exact he
      rcases findNode_present ho he2 ([] : List (Crumb Int T)) with ⟨c2, l2, r2, hf2⟩
      rw [hfp] at hf2
      simp only at hf2
      have hak : a = k := by injection hf2 with h1 h2 h3
      exact heq ((areKeysEqual_intLt k a).mpr hak.symm)

theorem erase_preserves {t : Node Int T} (ho : Ordered t) {k : Int} {b : Bool}
    {t2 : Node Int T} (h : erase intLt t k = some (b, t2)) :
    Ordered t2 ∧ atVal intLt t2 k = none := by
  rcases erase_spec ho k b t2 h with ⟨_, rfl, hk⟩ | ⟨_, L, w, M, hin, hin2⟩
  · exact ⟨ho, atVal_absent hk⟩
  · have ho' : List.Pairwise (· < ·) ((L ++ (k, w) :: M).map Prod.fst) := by
      have : Ordered t := ho
      simp only [Ordered, keysOf] at this
      rwa [hin] at this
    rcases pairwise_remove_mid ho' with ⟨hp2, hnk⟩
    have ho2 : Ordered t2 := by
      simp only [Ordered, keysOf]
      rwa [hin2]
    refine ⟨ho2, atVal_absent ?_⟩
    simp only [keysOf]
    rw [hin2]
    exact hnk

theorem find?_append_first {α : Type} {p : α → Bool} {L R : List α} {e : α}
    (hL : ∀ x ∈ L, p x = false) (he : p e = true) :
    (L ++ e :: R).find? p = some e := by
  induction L with
  | nil => simp [List.find?_cons, he]
  | cons a L ih =>
    rw [List.cons_append, List.find?_cons]
    rw [hL a (List.mem_cons_self a L)]
    exact ih fun x hx => hL x (List.mem_cons_of_mem _ hx)

theorem find?_congr_mem {α : Type} {p q : α → Bool} {l : List α}
    (h : ∀ x ∈ l, p x = q x) : l.find? p = l.find? q := by
  induction l with
  | nil => simp
  | cons a l ih =>
    rw [List.find?_cons, List.find?_cons, h a (List.mem_cons_self a l)]
    cases hq : q a with
    | false => exact ih fun x hx => h x (List.mem_cons_of_mem _ hx)
    | true => rfl

theorem lowerBound_spec {t : Node Int T} (ho : Ordered t) (k : Int) :
    lowerBound intLt t k = firstGE t k := by
  cases t with
  | nil => simp [lowerBound, firstGE, inorder]
  | node c0 l0 k0 v0 r0 =>
    rcases hfp : findNode intLt k (Node.node c0 l0 k0 v0 r0) [] with ⟨foc, path⟩
    rcases findNode_bounds ho (by simp) k ([] : List (Crumb Int T)) with
      ⟨c, l, a, w, r, hfst, hmem, hb1, hb2⟩
    rcases findNode_fst_spec intLt k (t := Node.node c0 l0 k0 v0 r0) (by simp)
      ([] : List (Crumb Int T)) with ⟨c9, l9, a9, w9, r9, hfst9, _, hstop⟩
    rw [hfst] at hfst9
    injection hfst9 with e1 e2 e3 e4 e5
    subst e1
    subst e2
    subst e3
    subst e4
    subst e5
    rw [hfp] at hfst
    simp only at hfst
    subst hfst
    have hplug : plug (Node.node c l a w r) path = Node.node c0 l0 k0 v0 r0 := by
      have hq := findNode_plug intLt k (Node.node c0 l0 k0 v0 r0) []
      rw [hfp] at hq
      simpa [plug] using hq
    have hdecomp : inorder (Node.node c0 l0 k0 v0 r0) =
        ctxL path ++ inorder (Node.node c l a w r) ++ ctxR path := by
      rw [← hplug, inorder_plug]
    have hofoc : Ordered (Node.node c l a w r) := ordered_focus ho hdecomp
    rcases ordered_node_iff.mp hofoc with ⟨_, _, hfl, _⟩
    have hcr : ∀ cr ∈ path, CrumbBound k cr := by
      have hq := findNode_path_bounds ho k ([] : List (Crumb Int T)) (by simp)
      rw [hfp] at hq
      simpa using hq
    have hctxL : ∀ e ∈ ctxL path, e.1 < k := ctxL_bounds hcr
    by_cases hcmp : intLt a k = true
    · have halt : a < k := (intLt_eq_true _ _).mp hcmp
      rw [lowerBound.eq_def]
      simp only [hfp, hcmp, if_pos rfl]
      rw [succEntry, firstGE]
      refine find?_congr_mem ?_
      intro e he
      have hiff : (a < e.1 ↔ k ≤ e.1) := by
        constructor
        · intro hax
          by_contra hxk
          have := hb1 e.1 (fst_mem_keysOf he) (by omega)
          omega
        · intro hkx
          omega
      simp only [intLt]
      exact decide_eq_decide.mpr hiff
    · have hka : k ≤ a := by
        have : ¬a < k := by simpa [intLt, decide_eq_false_iff_not] using hcmp
        omega
      rw [lowerBound.eq_def]
      simp only [hfp, hcmp, Bool.false_eq_true, if_false]
      have hshape : inorder (Node.node c0 l0 k0 v0 r0) =
          (ctxL path ++ inorder l) ++ (a, w) :: (inorder r ++ ctxR path) := by
        rw [hdecomp]
        simp [inorder, List.append_assoc]
      have hlk : ∀ e ∈ inorder l, e.1 < k := by
        rcases hstop with hstop | ⟨_, _, hlnil⟩ | ⟨hne0, hnlt, _⟩
        · have hz : k = a := (areKeysEqual_intLt _ _).mp hstop
          subst hz
          exact fun e he => hfl e.1 (fst_mem_keysOf he)
        · subst hlnil
          simp [inorder]
        · exfalso
          have h1 : ¬k < a := by simpa [intLt, decide_eq_false_iff_not] using hnlt
          have h3 : ¬a < k := by simpa [intLt, decide_eq_false_iff_not] using hcmp
          have h2 : k ≠ a := fun hh => by
            rw [(areKeysEqual_intLt k a).mpr hh] at hne0
            exact Bool.true_eq_false ▸ hne0
          omega
      rw [firstGE, hshape]
      symm
      refine find?_append_first ?_ ?_
      · intro e he
        show decide (k ≤ e.1) = false
        rcases List.mem_append.mp he with he | he
        · simp only [decide_eq_false_iff_not, not_le]
          exact hctxL e he
        · simp only [decide_eq_false_iff_not, not_le]
          exact hlk e he
      · show decide (k ≤ (a, w).1) = true
        simp only [decide_eq_true_eq]
        exact hka

theorem copyTree_id (t : Node K T) : copyTree t = t := by
  induction t with
  | nil => rfl
  | node c l k v r ihl ihr => simp [copyTree, ihl, ihr]

theorem copyCtor_black (t : Node K T) (hb : colorOf t = Color.Black) :
    copyCtor t = t := by
  cases t with
  | nil => rfl
  | node c l k v r =>
    have hc : c = Color.Black := hb
    simp [copyCtor, copyTree_id, hc]

theorem copyTreeAlloc_spec (t : Node K T) (b : Nat) :
    copyTreeAlloc b t =
      if sizeOf' t ≤ b then some (copyTree t, b - sizeOf' t) else none := by
  induction t generalizing b with
  | nil => simp [copyTreeAlloc, sizeOf', copyTree]
  | node c l k v r ihl ihr =>
    cases b with
    | zero => simp [copyTreeAlloc, sizeOf']
    | succ b =>
      rw [copyTreeAlloc.eq_def]
      simp only [ihl]
      by_cases hl : sizeOf' l ≤ b
      · simp only [if_pos hl, ihr]
        by_cases hr : sizeOf' r ≤ b - sizeOf' l
        · rw [if_pos hr, if_pos (by simp [sizeOf']; omega)]
          simp [copyTree, sizeOf']
          omega
        · rw [if_neg hr, if_neg (by simp [sizeOf']; omega)]
      · rw [if_neg hl, if_neg (by simp [sizeOf']; omega)]

theorem copyCtorAlloc_spec (budget : Nat) (t : Node K T) :
    copyCtorAlloc budget t = if sizeOf' t ≤ budget then copyCtor t else .nil := by
  cases t with
  | nil => simp [copyCtorAlloc, sizeOf', copyCtor]
  | node c l k v r =>
    cases budget with
    | zero => simp [copyCtorAlloc, sizeOf']
    | succ b =>
      rw [copyCtorAlloc.eq_def]
      simp only [copyTreeAlloc_spec]
      by_cases hl : sizeOf' l ≤ b
      · simp only [if_pos hl]
        by_cases hr : sizeOf' r ≤ b - sizeOf' l
        · rw [if_pos hr, if_pos (by simp [sizeOf']; omega)]
          simp [copyCtor]
        · rw [if_neg hr, if_neg (by simp [sizeOf']; omega)]
      · rw [if_neg hl, if_neg (by simp [sizeOf']; omega)]

theorem insert_absent_props {t : Node Int T} (ho : Ordered t)
    (hb : colorOf t = Color.Black) {k : Int} (hk : k ∉ keysOf t) (v : T) :
    ∃ t2, insert intLt t k v = some (true, t2) ∧ Ordered t2 ∧
      (k, v) ∈ inorder t2 ∧ (inorder t2).length = (inorder t).length + 1 := by
  rcases insert_absent ho hb hk v with ⟨t2, L, M, hins, hinT, hinT2, hL, hM⟩
  have ho2 : Ordered t2 := by
    have ho' : List.Pairwise (· < ·) ((L ++ M).map Prod.fst) := by
      have hthis : Ordered t := ho
      simp only [Ordered, keysOf] at hthis
      rwa [hinT] at hthis
    have hres := pairwise_insert_mid (v := v) ho' hL hM
    simp only [Ordered, keysOf]
    rwa [hinT2]
  refine ⟨t2, hins, ho2, ?_, ?_⟩
  · rw [hinT2]
    simp
  · rw [hinT2, hinT]
    simp
    omega

/-- Claim C1: the spec asserts that for every sequence of insert/erase
operations from the empty tree, each operation completes with the red-black
invariants intact and `isRBTree()` reporting the tree valid.  The code
violates this: after inserting keys 1..7 the tree is valid, but `erase 2`
removes a Black two-child node whose in-order successor (3) is not its right
child; `eraseNode` then starts `eraseFixup` at the *relocated successor*
(`brokenNode = candidate`, line 332) instead of the successor's old parent,
and the fixup fails `assert(brother)` (line 373) — a null dereference in a
release build — so the operation never completes, let alone preserves the
invariants. -/
theorem c1_erase_crash_after_valid_inserts :
    (runOps [Op.ins 1 10, Op.ins 2 20, Op.ins 3 30, Op.ins 4 40, Op.ins 5 50,
      Op.ins 6 60, Op.ins 7 70]).map isRBTree = some (some true) ∧
    runOps [Op.ins 1 10, Op.ins 2 20, Op.ins 3 30, Op.ins 4 40, Op.ins 5 50,
      Op.ins 6 60, Op.ins 7 70, Op.del 2] = none := by
  decide

/-- Claim C2: the spec asserts that erasing the key of a single-entry tree
returns `true` and leaves the tree empty with `begin() == end()`, the
deletion fixup handling a defect at an absent position.  The code violates
this: for the Black root with no children, `eraseNode` sets
`brokenNode = target->p`, which is null for the root, and passes it to
`eraseFixup`, whose `assert(target)` (line 361) fails —
`target->child(isLeftBroken)` is a null dereference in a release build —
so the erase crashes instead of returning `true`. -/
theorem c2_erase_sole_root_crash :
    insert intLt (.nil : Node Int Int) 1 10 =
        some (true, .node .Black .nil 1 10 .nil) ∧
    beginEntry (.node .Black .nil 1 10 (.nil : Node Int Int)) = some (1, 10) ∧
    erase intLt (.node .Black .nil 1 10 (.nil : Node Int Int)) 1 = none := by
  decide

/-- Claim C3: `insert(key, value)` returns `false` and leaves the tree
untouched when an equal key is present — so after a successful
`insert(k, v1)`, a second `insert(k, v2)` returns `false` and the stored
value stays `v1` — and returns `true` when the key is absent.  Stated over
ordered trees with a Black root, the invariants every tree reachable through
the public interface satisfies. -/
theorem c3_insert_duplicate_spec (t : Node Int Int) (k v : Int)
    (ho : Ordered t) (hb : colorOf t = Color.Black) :
    (∀ w, (k, w) ∈ inorder t → insert intLt t k v = some (false, t)) ∧
    (k ∉ keysOf t → ∃ t2, insert intLt t k v = some (true, t2) ∧ Ordered t2 ∧
      atVal intLt t2 k = some v ∧ ∀ v2, insert intLt t2 k v2 = some (false, t2)) := by
  constructor
  · intro w hw
    exact insert_present ho hw v
  · intro hk
    rcases insert_absent_props ho hb hk v with ⟨t2, hins, ho2, hmem, _⟩
    exact ⟨t2, hins, ho2, atVal_present ho2 hmem,
      fun v2 => insert_present ho2 hmem v2⟩

theorem c3_insert_duplicate_witness :
    ∃ t2, insert intLt (.nil : Node Int Int) 1 5 = some (true, t2) ∧ Ordered t2 ∧
      atVal intLt t2 1 = some 5 ∧ ∀ v2, insert intLt t2 1 v2 = some (false, t2) :=
  (c3_insert_duplicate_spec .nil 1 5 (by decide) (by decide)).2 (by decide)

/-- Claim C4: checked lookup `at(k)` returns the mapped value exactly when
`k` is present and fails with `KeyNotFound` (modelled `none`) exactly when
absent; after a successful `insert(k, v)`, `at(k)` returns `v`; after
`erase(k)` returns, `at(k)` fails with `KeyNotFound`. -/
theorem c4_at_lookup_spec (t : Node Int Int) (k : Int) (ho : Ordered t)
    (hb : colorOf t = Color.Black) :
    (∀ v, (k, v) ∈ inorder t → atVal intLt t k = some v) ∧
    (k ∉ keysOf t → atVal intLt t k = none) ∧
    (∀ v t2, insert intLt t k v = some (true, t2) → atVal intLt t2 k = some v) ∧
    (∀ b t2, erase intLt t k = some (b, t2) → atVal intLt t2 k = none) := by
  refine ⟨fun v hv => atVal_present ho hv, fun hk => atVal_absent hk, ?_, ?_⟩
  · intro v t2 hins
    have hk : k ∉ keysOf t := by
      intro hk
      rcases List.mem_map.mp hk with ⟨e, he, hek⟩
      have hmem : (k, e.2) ∈ inorder t := by
        have he2 : e = (k, e.2) := by rw [← hek]
        rw [← he2]
        exact he
      have hfalse := insert_present ho hmem v
      rw [hfalse] at hins
      simp at hins
    rcases insert_absent_props ho hb hk v with ⟨t3, hins2, ho2, hmem2, _⟩
    rw [hins2] at hins
    have ht : t3 = t2 := by simpa using hins
    subst ht
    exact atVal_present ho2 hmem2
  · intro b t2 her
    exact (erase_preserves ho her).2

theorem c4_at_lookup_witness :
    atVal intLt (.node .Black .nil 1 10 (.nil : Node Int Int)) 1 = some 10 ∧
    atVal intLt (.node .Black .nil 1 10 (.nil : Node Int Int)) 2 = none ∧
    atVal intLt (.node .Black .nil 1 10 (.node .Red .nil 2 20 (.nil : Node Int Int)))
        2 = some 20 ∧
    atVal intLt (.node .Black .nil 1 10 (.nil : Node Int Int)) 2 = none :=
  ⟨(c4_at_lookup_spec (.node .Black .nil 1 10 .nil) 1 (by decide) (by decide)).1 10
      (by decide),
    (c4_at_lookup_spec (.node .Black .nil 1 10 .nil) 2 (by decide) (by decide)).2.1
      (by decide),
    (c4_at_lookup_spec (.node .Black .nil 1 10 .nil) 2 (by decide) (by decide)).2.2.1
      20 (.node .Black .nil 1 10 (.node .Red .nil 2 20 .nil)) (by decide),
    (c4_at_lookup_spec (.node .Black .nil 1 10 .nil) 2 (by decide) (by decide)).2.2.2
      false (.node .Black .nil 1 10 .nil) (by decide)⟩

/-- Claim C5: `lowerBound(k)` returns the iterator at the first entry whose
key is not less than `k` (`firstGE`), or the end iterator (`none`) when no
such entry exists; concretely, on the tree the public interface builds from
keys [1,3,5,7], query 4 lands on key 5, query 7 on key 7, and query 8 is
end. -/
theorem c5_lowerBound_spec (t : Node Int Int) (k : Int) (ho : Ordered t) :
    lowerBound intLt t k = firstGE t k ∧
    (runOps [Op.ins 1 10, Op.ins 3 30, Op.ins 5 50, Op.ins 7 70] =
      some (.node .Black (.node .Black .nil 1 10 .nil) 3 30
        (.node .Black .nil 5 50 (.node .Red .nil 7 70 .nil))) ∧
     lowerBound intLt (.node .Black (.node .Black .nil 1 10 .nil) 3 30
        (.node .Black .nil 5 50 (.node .Red .nil 7 70 .nil))) 4 = some (5, 50) ∧
     lowerBound intLt (.node .Black (.node .Black .nil 1 10 .nil) 3 30
        (.node .Black .nil 5 50 (.node .Red .nil 7 70 .nil))) 7 = some (7, 70) ∧
     lowerBound intLt (.node .Black (.node .Black .nil 1 10 .nil) 3 30
        (.node .Black .nil 5 50 (.node .Red .nil 7 70 .nil))) 8 = none) :=
  ⟨lowerBound_spec ho k, by decide, by decide, by decide, by decide⟩

theorem c5_lowerBound_witness :
    lowerBound intLt (.node .Black (.node .Black .nil 1 10 .nil) 3 30
        (.node .Black .nil 5 50 (.node .Red .nil 7 70 (.nil : Node Int Int)))) 4 =
      firstGE (.node .Black (.node .Black .nil 1 10 .nil) 3 30
        (.node .Black .nil 5 50 (.node .Red .nil 7 70 .nil))) 4 :=
  (c5_lowerBound_spec _ 4 (by decide)).1

/-- Claim C6 counterexample: the claim says a moved-from tree is empty after
move construction *or move assignment*.  Move assignment (lines 62-67) is a
`std::swap`, so moving a tree into a non-empty destination leaves the
moved-from source holding the destination's former nodes: here the source
ends up with root key 1, not empty. -/
theorem c6_moved_from_counterexample :
    ((moveAssign (⟨.node .Black .nil 1 10 .nil, intLt⟩ : RBTreeS Int Int)
        ⟨.node .Black .nil 2 20 .nil, intLt⟩).2).root ≠ .nil := by
  decide

/-- Claim C6 (amended): after move construction the moved-from tree is empty
(root cleared, `begin() == end()`) and its nodes are transferred to the new
tree rather than deallocated; move assignment swaps the two trees' contents,
so the moved-from source holds the destination's previous contents and is
empty exactly when the destination was empty. -/
theorem c6_move_semantics (d : Int → Int → Bool) (src dst : RBTreeS Int Int) :
    (moveCtor d src).2.root = .nil ∧
    beginEntry (moveCtor d src).2.root = none ∧
    (moveCtor d src).1.root = src.root ∧
    (moveAssign dst src).2.root = dst.root ∧
    ((moveAssign dst src).2.root = .nil ↔ dst.root = .nil) ∧
    (moveAssign dst src).1.root = src.root := by
  refine ⟨rfl, rfl, rfl, rfl, Iff.rfl, rfl⟩

/-- Claim C7: copy construction produces a deep node-by-node clone
preserving every node's colour and the tree's shape (for the Black-rooted
trees the interface produces, the clone is the identical tree), and the copy
is independent: inserting a fresh key into the original changes its
iteration sequence while the copy keeps the original sequence. -/
theorem c7_copy_spec (t : Node Int Int) (hb : colorOf t = Color.Black)
    (ho : Ordered t) :
    copyCtor t = t ∧
    ∀ k v t2, k ∉ keysOf t → insert intLt t k v = some (true, t2) →
      inorder (copyCtor t) = inorder t ∧ inorder (copyCtor t) ≠ inorder t2 := by
  refine ⟨copyCtor_black t hb, ?_⟩
  intro k v t2 hk hins
  rcases insert_absent_props ho hb hk v with ⟨t3, hins2, _, _, hlen⟩
  rw [hins2] at hins
  have ht : t3 = t2 := by simpa using hins
  subst ht
  refine ⟨by rw [copyCtor_black t hb], ?_⟩
  intro heq
  rw [copyCtor_black t hb] at heq
  have := congrArg List.length heq
  omega

theorem c7_copy_witness :
    copyCtor (.node .Black .nil 1 10 (.nil : Node Int Int)) =
        .node .Black .nil 1 10 .nil ∧
    inorder (copyCtor (.node .Black .nil 1 10 (.nil : Node Int Int))) =
        inorder (.node .Black .nil 1 10 (.nil : Node Int Int)) ∧
    inorder (copyCtor (.node .Black .nil 1 10 (.nil : Node Int Int))) ≠
        inorder (.node .Black .nil 1 10 (.node .Red .nil 2 20 .nil)) :=
  ⟨(c7_copy_spec (.node .Black .nil 1 10 .nil) (by decide) (by decide)).1,
    ((c7_copy_spec (.node .Black .nil 1 10 .nil) (by decide) (by decide)).2 2 20
      (.node .Black .nil 1 10 (.node .Red .nil 2 20 .nil)) (by decide) (by decide)).1,
    ((c7_copy_spec (.node .Black .nil 1 10 .nil) (by decide) (by decide)).2 2 20
      (.node .Black .nil 1 10 (.node .Red .nil 2 20 .nil)) (by decide) (by decide)).2⟩

/-- Claim C8: when node allocation fails partway through copy construction
(modelled by an allocation budget smaller than the node count), the
`catch` block rolls back via `clear()` and the destination is left empty —
never half-built; with enough allocations the copy completes in full.  The
source is a value the copy never modifies. -/
theorem c8_copy_alloc_rollback (t : Node Int Int) (budget : Nat) :
    (copyCtorAlloc budget t = copyCtor t ∨ copyCtorAlloc budget t = .nil) ∧
    (sizeOf' t ≤ budget → copyCtorAlloc budget t = copyCtor t) ∧
    (budget < sizeOf' t → copyCtorAlloc budget t = .nil) := by
  rw [copyCtorAlloc_spec]
  by_cases hsz : sizeOf' t ≤ budget
  · rw [if_pos hsz]
    exact ⟨Or.inl rfl, fun _ => rfl, fun hlt => absurd hsz (by omega)⟩
  · rw [if_neg hsz]
    exact ⟨Or.inr rfl, fun hle => absurd hle hsz, fun _ => rfl⟩

theorem c8_copy_alloc_witness :
    copyCtorAlloc 1 (.node .Black (.node .Red .nil 1 10 .nil) 2 20
        (.node .Red .nil 3 30 (.nil : Node Int Int))) = .nil ∧
    copyCtorAlloc 3 (.node .Black (.node .Red .nil 1 10 .nil) 2 20
        (.node .Red .nil 3 30 (.nil : Node Int Int))) =
      copyCtor (.node .Black (.node .Red .nil 1 10 .nil) 2 20
        (.node .Red .nil 3 30 .nil)) :=
  ⟨(c8_copy_alloc_rollback (.node .Black (.node .Red .nil 1 10 .nil) 2 20
      (.node .Red .nil 3 30 .nil)) 1).2.2 (by decide),
    (c8_copy_alloc_rollback (.node .Black (.node .Red .nil 1 10 .nil) 2 20
      (.node .Red .nil 3 30 .nil)) 3).2.1 (by decide)⟩

/-- Claim C9 (behaviour modelled from the spec): the default-inserting
access mode applied to an absent key inserts a default-constructed value and
returns a reference to it, so a subsequent checked lookup succeeds; applied
to a present key it returns the existing value without modifying the tree.
The source's `operator[]` itself (line 105) assigns the `bool` result of
`insert(key, T())` to a `Node*` and does not compile when instantiated;
`bracketRef` implements the specified/intended behaviour. -/
theorem c9_bracket_intended_spec (t : Node Int Int) (k dflt : Int)
    (ho : Ordered t) (hb : colorOf t = Color.Black) :
    (∀ v, (k, v) ∈ inorder t → bracketRef intLt dflt t k = some (t, v)) ∧
    (k ∉ keysOf t → ∃ t2, bracketRef intLt dflt t k = some (t2, dflt) ∧
      atVal intLt t2 k = some dflt) := by
  constructor
  · intro v hv
    simp [bracketRef, atVal_present ho hv]
  · intro hk
    rcases insert_absent_props ho hb hk dflt with ⟨t2, hins, ho2, hmem, _⟩
    refine ⟨t2, ?_, atVal_present ho2 hmem⟩
    simp [bracketRef, atVal_absent hk, hins]

theorem c9_bracket_intended_witness :
    ∃ t2, bracketRef intLt 0 (.nil : Node Int Int) 5 = some (t2, 0) ∧
      atVal intLt t2 5 = some 0 :=
  (c9_bracket_intended_spec .nil 5 0 (by decide) (by decide)).2 (by decide)

/-- Claim C10: the move constructor's initialiser list (lines 50-54) does
not mention `compare_`, so the move-constructed tree's comparator is a
default-constructed `Compare` rather than the source's: every ordering
decision (find, insert, erase, lowerBound) of the new tree uses the default
comparator `d`, while move assignment transfers the source's comparator by
swap. -/
theorem c10_move_comparator_spec (d : Int → Int → Bool)
    (src dst : RBTreeS Int Int) (k v : Int) :
    (moveCtor d src).1.cmp = d ∧
    ((moveCtor d src).1).findS k = (findNode d k src.root []).1 ∧
    ((moveCtor d src).1).insertS k v = insert d src.root k v ∧
    ((moveCtor d src).1).eraseS k = erase d src.root k ∧
    ((moveCtor d src).1).lowerBoundS k = lowerBound d src.root k ∧
    (moveAssign dst src).1.cmp = src.cmp ∧
    (moveAssign dst src).2.cmp = dst.cmp :=
  ⟨rfl, rfl, rfl, rfl, rfl, rfl, rfl⟩

end demidenko
